import Mathlib

/-!
The program drmax-satis-generator: a shallow embedding of `main.go`

The generator reads a satis configuration, asks the GitHub, GitLab and Azure
DevOps services for the repositories of every declared source, keeps the
repositories that carry a `composer.json`, and writes the configuration back
with the collected `repositories`.

Modelling conventions.

* Go strings are Lean strings; `strings.Split` and `strings.Join` act on their
  characters (the separator used is the single byte `/`).
* Go `int` is a 64-bit signed integer: values are `Int`, and `options.Page++`
  wraps (`wrapInt64`).
* The three client libraries and `mapstructure` are not part of the program.
  They are fields of a `World`: deterministic functions from a request to its
  reply. Every request the program sends is recorded, in order, in the `calls`
  of a `Run`.
* `log.Fatal` ends the process (`Outcome.fatal`), a nil dereference or a failed
  type assertion is a run-time panic (`Outcome.panic`). The two `for { ... }`
  loops take a fuel argument and answer `Outcome.outOfFuel` when it runs out.
  Messages written by `log.Info` and `log.Error` are not recorded.
-/

namespace Satis

/-! ## Values -/

/-- A value produced by `json.Unmarshal` into an `interface{}`: `null` is the
nil interface, a number is a `float64` carried by its literal. -/
inductive JSON where
  | null
  | bool (b : Bool)
  | number (text : String)
  | string (s : String)
  | array (items : List JSON)
  | object (members : List (String × JSON))

/-- The Go struct `source` (main.go, lines 22-27). -/
structure source where
  SourceType : String
  SourceIdent : String
  SourceAuth : String
  Exclude : List String
deriving DecidableEq, Repr

/-- The Go struct `repository` (main.go, lines 28-33), its field `Type` written
`Typ`; `Options` is an
`interface{}`, `JSON.null` being nil. -/
structure repository where
  Name : String
  Typ : String
  URL : String
  Options : JSON

/-- What a `map[string]interface{}` of this program can hold: a decoded JSON
value, or the `[]repository` that `parseSources` stores (the empty list is the
nil slice). -/
inductive GoValue where
  | json (j : JSON)
  | repositories (rs : List repository)

/-- A Go `map[string]interface{}` as an association list. -/
abbrev GoMap := List (String × GoValue)

/-- The two-value form `v, ok := m[k]`: `none` when the key is absent. -/
def GoMap.get (m : GoMap) (k : String) : Option GoValue :=
  (m.find? (fun kv => kv.1 = k)).map Prod.snd

/-- The one-value form `m[k]`: the nil interface when the key is absent. -/
def GoMap.index (m : GoMap) (k : String) : GoValue :=
  (m.get k).getD (GoValue.json JSON.null)

/-- The builtin `delete(m, k)`. -/
def GoMap.delete (m : GoMap) (k : String) : GoMap :=
  m.filter (fun kv => ¬ kv.1 = k)

/-- The assignment `m[k] = v`. -/
def GoMap.set (m : GoMap) (k : String) (v : GoValue) : GoMap :=
  m.filter (fun kv => ¬ kv.1 = k) ++ [(k, v)]

/-- The keys of a map. -/
def GoMap.keys (m : GoMap) : List String := m.map Prod.fst

/-! ## Outcomes and runs -/

/-- How a call ends. -/
inductive Outcome (α : Type) where
  | ok (a : α)
  | fatal
  | panic
  | outOfFuel

/-- A request sent to a provider. -/
inductive Call where
  | githubListByOrg (auth org : String) (page perPage : Int)
  | githubGetContents (auth owner repo path : String)
  | gitlabListGroupProjects (auth group : String) (page perPage : Int)
  | gitlabGetFile (auth : String) (pid : Int) (path ref : String)
  | azdoNewClient (org auth : String)
  | azdoGetRepositories (org auth project : String)
  | azdoGetItem (org auth repoId path : String)
deriving DecidableEq, Repr

/-- The requests a computation has sent, oldest first, and how it ended. -/
structure Run (α : Type) where
  calls : List Call
  out : Outcome α

/-- A run that sends nothing and returns `a`. -/
def Run.pure {α : Type} (a : α) : Run α := ⟨[], Outcome.ok a⟩

/-- The run `r` preceded by the requests `cs`. -/
def Run.after {α : Type} (cs : List Call) (r : Run α) : Run α :=
  ⟨cs ++ r.calls, r.out⟩

/-- Sequencing: `f` runs only when `x` returned. -/
def Run.bind {α β : Type} (x : Run α) (f : α → Run β) : Run β :=
  match x.out with
  | Outcome.ok a => Run.after x.calls (f a)
  | Outcome.fatal => ⟨x.calls, Outcome.fatal⟩
  | Outcome.panic => ⟨x.calls, Outcome.panic⟩
  | Outcome.outOfFuel => ⟨x.calls, Outcome.outOfFuel⟩

/-! ## The providers -/

/-- What the program reads of a `*github.Repository`, through its nil-safe
getters `GetName`, `GetArchived`, `GetSSHURL`. -/
structure GithubRepository where
  Name : String
  Archived : Bool
  SSHURL : String
deriving DecidableEq, Repr

/-- What the program reads of a `*github.Response`. -/
structure GithubResponse where
  NextPage : Int
deriving DecidableEq, Repr

/-- The three results of `client.Repositories.ListByOrg`; `response` is `none`
for a nil pointer, `err` is `err != nil`. -/
structure GithubListing where
  repos : List GithubRepository
  response : Option GithubResponse
  err : Bool
deriving DecidableEq, Repr

/-- The `(file, err)` of a marker-file request: `file` is `file != nil`, `err`
is `err != nil`. -/
structure Probe where
  file : Bool
  err : Bool
deriving DecidableEq, Repr

/-- What the program reads of a `*gitlab.Project`. -/
structure GitlabProject where
  ID : Int
  Name : String
  Archived : Bool
  DefaultBranch : String
  SSHURLToRepo : String
deriving DecidableEq, Repr

/-- What the program reads of a `*gitlab.Response`. -/
structure GitlabResponse where
  CurrentPage : Int
  TotalPages : Int
deriving DecidableEq, Repr

/-- The results of `client.Groups.ListGroupProjects`; the program discards the
error. -/
structure GitlabListing where
  projects : List GitlabProject
  response : Option GitlabResponse
  err : Bool
deriving DecidableEq, Repr

/-- What the program reads of a `git.GitRepository`: `Id.String()`, `*Name`
and `*SshUrl` (the service fills the three pointers of every repository it
lists). -/
structure GitRepository where
  Id : String
  Name : String
  SshUrl : String
deriving DecidableEq, Repr

/-- The results of `client.GetRepositories`; `repos` is `none` for a nil
pointer. -/
structure AzDOListing where
  repos : Option (List GitRepository)
  err : Bool
deriving DecidableEq, Repr

/-- The libraries the program calls. A client is identified by what it was
built from: the token (GitHub, GitLab), or the organisation URL and the token
(Azure DevOps).

`decodeSources j` is `mapstructure.Decode(j, &sources)` for a non-nil `j` and
`decodeRepository v` is `mapstructure.Decode(v, &repo)`: `none` when `Decode`
returns an error. `gitlabNewClient` and `azdoNewClient` tell whether the
constructor returned without error; the GitLab constructor sends nothing, the
Azure DevOps one asks the service where its git API lives. -/
structure World where
  decodeSources : JSON → Option (List source)
  decodeRepository : JSON → Option repository
  githubListByOrg : String → String → Int → Int → GithubListing
  githubGetContents : String → String → String → String → Probe
  gitlabNewClient : String → Bool
  gitlabListGroupProjects : String → String → Int → Int → GitlabListing
  gitlabGetFile : String → Int → String → String → Probe
  azdoNewClient : String → String → Bool
  azdoGetRepositories : String → String → String → AzDOListing
  azdoGetItem : String → String → String → String → Probe

/-! ## The program -/

/-- The constant `composerPath` (main.go, line 20). -/
def composerPath : String := "composer.json"

/-- The value a Go `int` holds for the mathematical integer `x`: `x` reduced
to 64-bit two's complement (`options.Page++` stores `wrapInt64 (page + 1)`). -/
def wrapInt64 (x : Int) : Int := (x + 2 ^ 63) % 2 ^ 64 - 2 ^ 63

/-- The function `isExcluded` (main.go, lines 303-310). -/
def isExcluded : List String → String → Bool
  | [], _ => false
  | a :: l, n => if a = n then true else isExcluded l n

/-- The result `strings.Split(s, "/")`, on the characters of `s`: the text up
to the first separator, then the split of what follows it. -/
def splitSlash : List Char → List (List Char)
  | [] => [[]]
  | c :: cs =>
    if c = '/' then [] :: splitSlash cs
    else
      match splitSlash cs with
      | [] => [[c]]
      | seg :: segs => (c :: seg) :: segs

/-- The result `strings.Join(parts, "/")`. -/
def joinSlash : List (List Char) → List Char
  | [] => []
  | [a] => a
  | a :: b :: rest => a ++ '/' :: joinSlash (b :: rest)

/-- Lines 119-121 of `getAzDOClient`: `idents := strings.Split(ident, "/")`,
`org := strings.Join(idents[:len(idents)-1], "/")`,
`project := idents[len(idents)-1]`. The answer is `(org, project)`; `none` is
the slice-bounds panic of an empty `idents`. -/
def splitIdent (ident : String) : Option (String × String) :=
  let idents := splitSlash ident.data
  match idents.getLast? with
  | none => none
  | some project => some (String.mk (joinSlash idents.dropLast), String.mk project)

/-! ### GitHub -/

/-- The function `prepareGithubRepo` (main.go, lines 199-213): the requests it
sends and the pointer it returns. -/
def prepareGithubRepo (W : World) (s : source) (repo : GithubRepository) :
    List Call × Option repository :=
  if repo.Archived then ([], none)
  else
    let probe := W.githubGetContents s.SourceAuth s.SourceIdent repo.Name composerPath
    ([Call.githubGetContents s.SourceAuth s.SourceIdent repo.Name composerPath],
      if !probe.file || probe.err then none
      else some ⟨repo.Name, "git", repo.SSHURL, JSON.null⟩)

/-- The inner loop of `parseGithub` (main.go, lines 167-176) over one page,
starting from the `repositories` collected so far. -/
def githubRepos (W : World) (s : source) :
    List GithubRepository → List repository → List Call × List repository
  | [], repositories => ([], repositories)
  | repo :: rest, repositories =>
    let p := prepareGithubRepo W s repo
    let r := githubRepos W s rest
      (match p.2 with
      | none => repositories
      | some repoInfo =>
        if isExcluded s.Exclude repoInfo.Name then repositories
        else repositories ++ [repoInfo])
    (p.1 ++ r.1, r.2)

/-- The loop of `parseGithub` (main.go, lines 162-181) from `options.Page =
page` with the `repositories` collected so far. -/
def parseGithubLoop (W : World) (s : source) :
    Nat → Int → List repository → Run (List repository)
  | 0, _, _ => ⟨[], Outcome.outOfFuel⟩
  | fuel + 1, page, repositories =>
    let listing := W.githubListByOrg s.SourceAuth s.SourceIdent page 100
    let inner := githubRepos W s listing.repos repositories
    let sent := Call.githubListByOrg s.SourceAuth s.SourceIdent page 100 :: inner.1
    match listing.response with
    | none => ⟨sent, Outcome.panic⟩
    | some response =>
      if response.NextPage = 0 then ⟨sent, Outcome.ok inner.2⟩
      else Run.after sent (parseGithubLoop W s fuel (wrapInt64 (page + 1)) inner.2)

/-- The function `parseGithub` (main.go, lines 152-183). -/
def parseGithub (W : World) (fuel : Nat) (s : source) : Run (List repository) :=
  parseGithubLoop W s fuel 1 []

/-! ### GitLab -/

/-- The function `prepareGitlabRepo` (main.go, lines 253-267). -/
def prepareGitlabRepo (W : World) (s : source) (project : GitlabProject) :
    List Call × Option repository :=
  if project.Archived then ([], none)
  else
    let probe := W.gitlabGetFile s.SourceAuth project.ID composerPath project.DefaultBranch
    ([Call.gitlabGetFile s.SourceAuth project.ID composerPath project.DefaultBranch],
      if !probe.file || probe.err then none
      else some ⟨project.Name, "git", project.SSHURLToRepo, JSON.null⟩)

/-- The inner loop of `parseGitlab` (main.go, lines 233-242) over one page. -/
def gitlabRepos (W : World) (s : source) :
    List GitlabProject → List repository → List Call × List repository
  | [], repositories => ([], repositories)
  | project :: rest, repositories =>
    let p := prepareGitlabRepo W s project
    let r := gitlabRepos W s rest
      (match p.2 with
      | none => repositories
      | some repoInfo =>
        if isExcluded s.Exclude repoInfo.Name then repositories
        else repositories ++ [repoInfo])
    (p.1 ++ r.1, r.2)

/-- The loop of `parseGitlab` (main.go, lines 231-248) from `options.Page =
page` with the `repositories` collected so far. -/
def parseGitlabLoop (W : World) (s : source) :
    Nat → Int → List repository → Run (List repository)
  | 0, _, _ => ⟨[], Outcome.outOfFuel⟩
  | fuel + 1, page, repositories =>
    let listing := W.gitlabListGroupProjects s.SourceAuth s.SourceIdent page 100
    let inner := gitlabRepos W s listing.projects repositories
    let sent := Call.gitlabListGroupProjects s.SourceAuth s.SourceIdent page 100 :: inner.1
    match listing.response with
    | none => ⟨sent, Outcome.panic⟩
    | some response =>
      if response.CurrentPage = response.TotalPages then ⟨sent, Outcome.ok inner.2⟩
      else Run.after sent (parseGitlabLoop W s fuel (wrapInt64 (page + 1)) inner.2)

/-- The function `parseGitlab` (main.go, lines 215-251). -/
def parseGitlab (W : World) (fuel : Nat) (s : source) : Run (List repository) :=
  if W.gitlabNewClient s.SourceAuth then parseGitlabLoop W s fuel 1 []
  else Run.pure []

/-! ### Azure DevOps -/

/-- The function `getAzDOClient` (main.go, lines 118-132). It returns the
project and the client, a client being the organisation URL it was built from
(with the token of `s`). -/
def getAzDOClient (W : World) (s : source) : Run (String × String) :=
  match splitIdent s.SourceIdent with
  | none => ⟨[], Outcome.panic⟩
  | some (org, project) =>
    if W.azdoNewClient org s.SourceAuth then
      ⟨[Call.azdoNewClient org s.SourceAuth], Outcome.ok (project, org)⟩
    else ⟨[Call.azdoNewClient org s.SourceAuth], Outcome.fatal⟩

/-- The function `prepareAzDORepo` (main.go, lines 134-150). -/
def prepareAzDORepo (W : World) (s : source) (client : String) (repo : GitRepository) :
    List Call × Option repository :=
  let probe := W.azdoGetItem client s.SourceAuth repo.Id ("/" ++ composerPath)
  ([Call.azdoGetItem client s.SourceAuth repo.Id ("/" ++ composerPath)],
    if !probe.file || probe.err then none
    else some ⟨repo.Name, "git", repo.SshUrl, JSON.null⟩)

/-- The loop of `parseAzDO` (main.go, lines 103-113). -/
def azdoRepos (W : World) (s : source) (client : String) :
    List GitRepository → List repository → List Call × List repository
  | [], repositories => ([], repositories)
  | repo :: rest, repositories =>
    let p := prepareAzDORepo W s client repo
    let r := azdoRepos W s client rest
      (match p.2 with
      | none => repositories
      | some repoInfo =>
        if isExcluded s.Exclude repoInfo.Name then repositories
        else repositories ++ [repoInfo])
    (p.1 ++ r.1, r.2)

/-- The function `parseAzDO` (main.go, lines 95-116): `*repos` panics on the
nil pointer. -/
def parseAzDO (W : World) (s : source) : Run (List repository) :=
  (getAzDOClient W s).bind fun pc =>
    let listing := W.azdoGetRepositories pc.2 s.SourceAuth pc.1
    match listing.repos with
    | none => ⟨[Call.azdoGetRepositories pc.2 s.SourceAuth pc.1], Outcome.panic⟩
    | some repos =>
      let inner := azdoRepos W s pc.2 repos []
      ⟨Call.azdoGetRepositories pc.2 s.SourceAuth pc.1 :: inner.1, Outcome.ok inner.2⟩

/-! ### Reading the configuration -/

/-- Sequencing of outcomes: `f` runs only when `x` returned. -/
def Outcome.bind {α β : Type} (x : Outcome α) (f : α → Outcome β) : Outcome β :=
  match x with
  | Outcome.ok a => f a
  | Outcome.fatal => Outcome.fatal
  | Outcome.panic => Outcome.panic
  | Outcome.outOfFuel => Outcome.outOfFuel

/-- An outcome as a run that sends nothing. -/
def Run.lift {α : Type} (x : Outcome α) : Run α := ⟨[], x⟩

/-- Lines 280-285 of `parseInput`, for the key `k` (`name`, `homepage`): when
the key is present its value is asserted to be a string; a blank one is only
logged. -/
def checkAttribute (mapConfig : GoMap) (k : String) : Outcome Unit :=
  match mapConfig.get k with
  | none => Outcome.ok ()
  | some (GoValue.json (JSON.string _)) => Outcome.ok ()
  | some _ => Outcome.panic

/-- Lines 287-289 of `parseInput`: when the key `sources` is present its value
is asserted to be a `[]interface{}`, and an empty one is fatal. -/
def checkSources (mapConfig : GoMap) : Outcome Unit :=
  match mapConfig.get "sources" with
  | none => Outcome.ok ()
  | some (GoValue.json (JSON.array items)) =>
    if items.length = 0 then Outcome.fatal else Outcome.ok ()
  | some _ => Outcome.panic

/-- The call `mapstructure.Decode(mapConfig["sources"], &sources)` of line 290,
`sources` being nil before it: `none` is an error. For a nil input `Decode`
sets nothing and returns no error, which leaves the nil slice. -/
def mapstructureDecodeSources (W : World) : GoValue → Option (List source)
  | GoValue.json JSON.null => some []
  | GoValue.json j => W.decodeSources j
  | GoValue.repositories _ => none

/-- Lines 296-298 of `parseInput`: an absent or empty `repositories` becomes
nil; a present one is asserted to be a `[]interface{}`. -/
def checkRepositories (mapConfig : GoMap) : Outcome GoMap :=
  match mapConfig.get "repositories" with
  | none => Outcome.ok (mapConfig.set "repositories" (GoValue.json JSON.null))
  | some (GoValue.json (JSON.array items)) =>
    if items.length = 0 then Outcome.ok (mapConfig.set "repositories" (GoValue.json JSON.null))
    else Outcome.ok mapConfig
  | some _ => Outcome.panic

/-- The map that the assertion `configFile.(map[string]interface{})` yields for
a JSON object with the given members. -/
def asMap (members : List (String × JSON)) : GoMap :=
  members.map fun kv => (kv.1, GoValue.json kv.2)

/-- The function `parseInput` (main.go, lines 269-301), from the result of
`json.Unmarshal` on the input file: `none` when it returned an error (as it
does on the empty content of an unreadable file), else the decoded value. -/
def parseInput (W : World) (unmarshal : Option JSON) : Outcome (GoMap × List source) :=
  match unmarshal with
  | none => Outcome.fatal
  | some (JSON.object members) =>
    let mapConfig : GoMap := asMap members
    (checkAttribute mapConfig "name").bind fun _ =>
    (checkAttribute mapConfig "homepage").bind fun _ =>
    (checkSources mapConfig).bind fun _ =>
    match mapstructureDecodeSources W (mapConfig.index "sources") with
    | none => Outcome.fatal
    | some sources =>
      (checkRepositories (mapConfig.delete "sources")).bind fun mapConfig =>
      Outcome.ok (mapConfig, sources)
  | some _ => Outcome.panic

/-! ### Collecting the repositories -/

/-- Lines 64-72 of `parseSources`: the entries that decode are appended, the
others are logged and skipped. -/
def decodeStatic (W : World) : List JSON → List repository → List repository
  | [], repositories => repositories
  | v :: rest, repositories =>
    match W.decodeRepository v with
    | none => decodeStatic W rest repositories
    | some repo => decodeStatic W rest (repositories ++ [repo])

/-- Lines 60-74 of `parseSources`: the statically declared repositories. A
non-nil `output["repositories"]` is asserted to be a `[]interface{}`. -/
def staticRepositories (W : World) (output : GoMap) : Outcome (List repository) :=
  match output.index "repositories" with
  | GoValue.json JSON.null => Outcome.ok []
  | GoValue.json (JSON.array t) =>
    if t.length > 0 then Outcome.ok (decodeStatic W t []) else Outcome.ok []
  | _ => Outcome.panic

/-- Lines 76-90 of `parseSources`: the loop over the sources, from the
`repositories` collected so far. -/
def sourcesLoop (W : World) (fuel : Nat) :
    List source → List repository → Run (List repository)
  | [], repositories => Run.pure repositories
  | s :: rest, repositories =>
    if s.SourceType = "gitlab" then
      (parseGitlab W fuel s).bind fun repos => sourcesLoop W fuel rest (repositories ++ repos)
    else if s.SourceType = "github" then
      (parseGithub W fuel s).bind fun repos => sourcesLoop W fuel rest (repositories ++ repos)
    else if s.SourceType = "azdo" then
      (parseAzDO W s).bind fun repos => sourcesLoop W fuel rest (repositories ++ repos)
    else sourcesLoop W fuel rest repositories

/-- Lines 60-92 of `parseSources`: what it does with the `output` and the
`sources` that `parseInput` returned. -/
def parseSourcesFrom (W : World) (fuel : Nat) (output : GoMap) (sources : List source) :
    Run GoMap :=
  (Run.lift (staticRepositories W output)).bind fun repositories =>
  (sourcesLoop W fuel sources repositories).bind fun repositories =>
  Run.pure (output.set "repositories" (GoValue.repositories repositories))

/-- The function `parseSources` (main.go, lines 58-93). -/
def parseSources (W : World) (fuel : Nat) (unmarshal : Option JSON) : Run GoMap :=
  (Run.lift (parseInput W unmarshal)).bind fun os => parseSourcesFrom W fuel os.1 os.2



/-! ## The inclusion rule as the specification words it -/

/-- The rule of the specification: a candidate is included when it is not
archived, its marker-file probe succeeded and its name is not excluded. -/
def specIncluded (archived probe excluded : Bool) : Bool :=
  !archived && probe && !excluded

/-- A marker-file probe succeeded: the file is not nil and there is no error. -/
def Probe.succeeded (p : Probe) : Bool := p.file && !p.err

/-- The record the specification gives a candidate: its name, the type `git`,
its SSH URL and no options. -/
def specRecord (name url : String) : repository := ⟨name, "git", url, JSON.null⟩

/-- The GitHub candidates of `cands` that the specification includes for the
source `s`, as records, in the order of `cands`. -/
def githubIncluded (W : World) (s : source) (cands : List GithubRepository) :
    List repository :=
  (cands.filter fun c =>
    specIncluded c.Archived
      (W.githubGetContents s.SourceAuth s.SourceIdent c.Name composerPath).succeeded
      (decide (c.Name ∈ s.Exclude))).map fun c => specRecord c.Name c.SSHURL

/-- The GitLab candidates of `cands` that the specification includes. -/
def gitlabIncluded (W : World) (s : source) (cands : List GitlabProject) :
    List repository :=
  (cands.filter fun c =>
    specIncluded c.Archived
      (W.gitlabGetFile s.SourceAuth c.ID composerPath c.DefaultBranch).succeeded
      (decide (c.Name ∈ s.Exclude))).map fun c => specRecord c.Name c.SSHURLToRepo

/-- The Azure DevOps candidates of `cands` that the specification includes,
none of them counting as archived; `client` is the organisation URL. -/
def azdoIncluded (W : World) (s : source) (client : String) (cands : List GitRepository) :
    List repository :=
  (cands.filter fun c =>
    specIncluded false
      (W.azdoGetItem client s.SourceAuth c.Id ("/" ++ composerPath)).succeeded
      (decide (c.Name ∈ s.Exclude))).map fun c => specRecord c.Name c.SshUrl

/-- The marker-file requests one page of GitHub candidates causes: one for
every candidate that is not archived. -/
def githubProbes (s : source) (cands : List GithubRepository) : List Call :=
  (cands.filter fun c => !c.Archived).map fun c =>
    Call.githubGetContents s.SourceAuth s.SourceIdent c.Name composerPath

/-- The marker-file requests one page of GitLab candidates causes. -/
def gitlabProbes (s : source) (cands : List GitlabProject) : List Call :=
  (cands.filter fun c => !c.Archived).map fun c =>
    Call.gitlabGetFile s.SourceAuth c.ID composerPath c.DefaultBranch

/-- The marker-file requests a list of Azure DevOps candidates causes. -/
def azdoProbes (s : source) (client : String) (cands : List GitRepository) : List Call :=
  cands.map fun c => Call.azdoGetItem client s.SourceAuth c.Id ("/" ++ composerPath)

/-- The page numbers of the GitHub listing requests among `calls`, in order. -/
def githubPagesRequested (calls : List Call) : List Int :=
  calls.filterMap fun c =>
    match c with
    | Call.githubListByOrg _ _ page _ => some page
    | _ => none

/-- The page numbers of the GitLab listing requests among `calls`, in order. -/
def gitlabPagesRequested (calls : List Call) : List Int :=
  calls.filterMap fun c =>
    match c with
    | Call.gitlabListGroupProjects _ _ page _ => some page
    | _ => none

/-- The pages `1, 2, ..., n`. -/
def pagesUpTo (n : Nat) : List Int := (List.range n).map fun (i : Nat) => (i : Int) + 1

/-- The requests `parseGithub` sends for the page `page` of the source `s`: the
listing, then the marker-file requests of its candidates. -/
def githubPageCalls (W : World) (s : source) (page : Int) : List Call :=
  Call.githubListByOrg s.SourceAuth s.SourceIdent page 100 ::
    githubProbes s (W.githubListByOrg s.SourceAuth s.SourceIdent page 100).repos

/-- The requests `parseGitlab` sends for the page `page` of the source `s`. -/
def gitlabPageCalls (W : World) (s : source) (page : Int) : List Call :=
  Call.gitlabListGroupProjects s.SourceAuth s.SourceIdent page 100 ::
    gitlabProbes s (W.gitlabListGroupProjects s.SourceAuth s.SourceIdent page 100).projects

/-! ## Example worlds and inputs -/

/-- The string under the key `k` of a JSON object, empty when the key is absent
or holds no string. -/
def stringField (members : List (String × JSON)) (k : String) : String :=
  match (members.find? fun kv => kv.1 = k).map Prod.snd with
  | some (JSON.string s) => s
  | _ => ""

/-- The strings of a JSON array, `none` when an item is not a string. -/
def stringItems : List JSON → Option (List String)
  | [] => some []
  | JSON.string s :: rest => (stringItems rest).map fun l => s :: l
  | _ :: _ => none

/-- A decoder of one `source` in the manner of `mapstructure`: an object whose
`exclude`, when present, is an array of strings. -/
def exampleDecodeSource : JSON → Option source
  | JSON.object members =>
    match (members.find? fun kv => kv.1 = "exclude").map Prod.snd with
    | none =>
      some ⟨stringField members "sourceType", stringField members "sourceIdent",
        stringField members "sourceAuth", []⟩
    | some (JSON.array items) =>
      (stringItems items).map fun ex =>
        ⟨stringField members "sourceType", stringField members "sourceIdent",
          stringField members "sourceAuth", ex⟩
    | some _ => none
  | _ => none

/-- A decoder of every item of a list, `none` when one item fails. -/
def decodeAll {α : Type} (f : JSON → Option α) : List JSON → Option (List α)
  | [] => some []
  | v :: rest =>
    match f v, decodeAll f rest with
    | some a, some l => some (a :: l)
    | _, _ => none

/-- A decoder of the `sources` array in the manner of `mapstructure`. -/
def exampleDecodeSources : JSON → Option (List source)
  | JSON.array items => decodeAll exampleDecodeSource items
  | _ => none

/-- A decoder of one `repository` in the manner of `mapstructure`: an object,
whose `options` are kept as they are. -/
def exampleDecodeRepository : JSON → Option repository
  | JSON.object members =>
    some ⟨stringField members "name", stringField members "type", stringField members "url",
      ((members.find? fun kv => kv.1 = "options").map Prod.snd).getD JSON.null⟩
  | _ => none

/-- A world in which every service is empty: listings hold nothing and report
a last page, every marker file is present. Configuration entries are decoded by
the example decoders. -/
def quietWorld : World where
  decodeSources := exampleDecodeSources
  decodeRepository := exampleDecodeRepository
  githubListByOrg := fun _ _ _ _ => ⟨[], some ⟨0⟩, false⟩
  githubGetContents := fun _ _ _ _ => ⟨true, false⟩
  gitlabNewClient := fun _ => true
  gitlabListGroupProjects := fun _ _ page _ => ⟨[], some ⟨page, page⟩, false⟩
  gitlabGetFile := fun _ _ _ _ => ⟨true, false⟩
  azdoNewClient := fun _ _ => true
  azdoGetRepositories := fun _ _ _ => ⟨some [], false⟩
  azdoGetItem := fun _ _ _ _ => ⟨true, false⟩

/-- A GitHub candidate named `app`. -/
def appCandidate : GithubRepository := ⟨"app", false, "git@github.com:acme/app.git"⟩

/-- A world whose GitHub lists three pages of one hundred candidates, each
announcing the next page, then an empty page that announces none. -/
def pagedWorld : World :=
  { quietWorld with
    githubListByOrg := fun _ _ page _ =>
      if page = 1 ∨ page = 2 ∨ page = 3 then
        ⟨List.replicate 100 appCandidate, some ⟨page + 1⟩, false⟩
      else ⟨[], some ⟨0⟩, false⟩ }

/-- The GitHub source of the organisation `acme`, excluding `legacy`. -/
def acme : source := ⟨"github", "acme", "", ["legacy"]⟩

/-- A world after the scenario of the specification. Each service lists, on one
page, `legacy`, `app`, `old` (archived, where the service reports it) and
`bare`; every marker file is present except the one of `bare`. -/
def scenarioWorld : World :=
  { quietWorld with
    githubListByOrg := fun _ _ _ _ =>
      ⟨[⟨"legacy", false, "git@github.com:acme/legacy.git"⟩, appCandidate,
        ⟨"old", true, "git@github.com:acme/old.git"⟩,
        ⟨"bare", false, "git@github.com:acme/bare.git"⟩], some ⟨0⟩, false⟩
    githubGetContents := fun _ _ repo _ =>
      if repo = "bare" then ⟨false, true⟩ else ⟨true, false⟩
    gitlabListGroupProjects := fun _ _ _ _ =>
      ⟨[⟨1, "legacy", false, "main", "git@gitlab.com:acme/legacy.git"⟩,
        ⟨2, "app", false, "main", "git@gitlab.com:acme/app.git"⟩,
        ⟨3, "old", true, "main", "git@gitlab.com:acme/old.git"⟩,
        ⟨4, "bare", false, "main", "git@gitlab.com:acme/bare.git"⟩], some ⟨1, 1⟩, false⟩
    gitlabGetFile := fun _ pid _ _ => if pid = 4 then ⟨false, true⟩ else ⟨true, false⟩
    azdoGetRepositories := fun _ _ _ =>
      ⟨some [⟨"id-1", "legacy", "git@ssh.dev.azure.com:v3/acme/proj/legacy"⟩,
        ⟨"id-2", "app", "git@ssh.dev.azure.com:v3/acme/proj/app"⟩,
        ⟨"id-4", "bare", "git@ssh.dev.azure.com:v3/acme/proj/bare"⟩], false⟩
    azdoGetItem := fun _ _ repoId _ =>
      if repoId = "id-4" then ⟨false, true⟩ else ⟨true, false⟩ }

/-- The GitLab source of the group `acme`, excluding `legacy`. -/
def acmeGroup : source := ⟨"gitlab", "acme", "", ["legacy"]⟩

/-- The Azure DevOps source of the project `proj`, excluding `legacy`. -/
def acmeProject : source := ⟨"azdo", "https://dev.azure.com/acme/proj", "pat", ["legacy"]⟩

/-- A world whose GitLab answers every listing request with an empty page that
reports current page 1 of 0 pages. -/
def emptyGroupWorld : World :=
  { quietWorld with
    gitlabListGroupProjects := fun _ _ _ _ => ⟨[], some ⟨1, 0⟩, false⟩ }

/-- A world whose GitLab lists `app` on page 1 of 2 and `tool` on page 2 of 2. -/
def twoPageWorld : World :=
  { quietWorld with
    gitlabListGroupProjects := fun _ _ page _ =>
      if page = 1 then
        ⟨[⟨2, "app", false, "main", "git@gitlab.com:acme/app.git"⟩], some ⟨1, 2⟩, false⟩
      else ⟨[⟨5, "tool", false, "main", "git@gitlab.com:acme/tool.git"⟩], some ⟨2, 2⟩, false⟩ }

/-- The resolver that `parseSources` calls for a source, by its type (lines
78-88); a source of another type is skipped, which sends nothing and adds
nothing. -/
def resolve (W : World) (fuel : Nat) (s : source) : Run (List repository) :=
  if s.SourceType = "gitlab" then parseGitlab W fuel s
  else if s.SourceType = "github" then parseGithub W fuel s
  else if s.SourceType = "azdo" then parseAzDO W s
  else Run.pure []

/-- A source of a type the program does not know. -/
def svnSource : source := ⟨"svn", "https://svn.example/acme", "", []⟩

/-- The JSON form of a source. -/
def sourceJSON (s : source) : JSON :=
  JSON.object [("sourceType", JSON.string s.SourceType),
    ("sourceIdent", JSON.string s.SourceIdent), ("sourceAuth", JSON.string s.SourceAuth),
    ("exclude", JSON.array (s.Exclude.map JSON.string))]

/-- A statically declared repository named `app`, with options. -/
def staticEntry : JSON :=
  JSON.object [("name", JSON.string "app"), ("type", JSON.string "vcs"),
    ("url", JSON.string "https://git.example/app.git"),
    ("options", JSON.object [("depth", JSON.number "1")])]

/-- A configuration with a name, a homepage, an extension field, one static
repository and the given sources. -/
def configWith (sources : List source) : JSON :=
  JSON.object [("name", JSON.string "acme/satis"),
    ("homepage", JSON.string "https://satis.example"),
    ("require-all", JSON.bool true),
    ("sources", JSON.array (sources.map sourceJSON)),
    ("repositories", JSON.array [staticEntry])]

/-- A configuration without the key `sources`. -/
def configWithoutSources : JSON :=
  JSON.object [("name", JSON.string "acme/satis"),
    ("homepage", JSON.string "https://satis.example")]

/-- A configuration whose `sources` is the empty array. -/
def configEmptySources : JSON :=
  JSON.object [("name", JSON.string "acme/satis"),
    ("homepage", JSON.string "https://satis.example"), ("sources", JSON.array [])]

/-- The scenario world with an Azure DevOps listing that fails: the client
returns a nil pointer and an error. -/
def failingAzdoWorld : World :=
  { scenarioWorld with azdoGetRepositories := fun _ _ _ => ⟨none, true⟩ }

/-- The scenario world with a GitHub listing that fails before any response:
nil repositories, a nil response and an error. -/
def failingGithubWorld : World :=
  { scenarioWorld with githubListByOrg := fun _ _ _ _ => ⟨[], none, true⟩ }

/-- The scenario world with a GitLab listing that fails before any response. -/
def failingGitlabWorld : World :=
  { scenarioWorld with gitlabListGroupProjects := fun _ _ _ _ => ⟨[], none, true⟩ }

/-! ## Lemmas on splitting and joining -/

theorem splitSlash_ne_nil (l : List Char) : splitSlash l ≠ [] := by
  induction l with
  | nil => simp [splitSlash]
  | cons c cs ih =>
    unfold splitSlash
    split
    · simp
    · split <;> simp

theorem splitSlash_of_not_mem (l : List Char) (h : '/' ∉ l) : splitSlash l = [l] := by
  induction l with
  | nil => simp [splitSlash]
  | cons c cs ih =>
    have hc : ¬ c = '/' := fun e => h (by simp [e])
    have hcs : '/' ∉ cs := fun e => h (by simp [e])
    simp [splitSlash, hc, ih hcs]

theorem splitSlash_segments (l : List Char) : ∀ seg ∈ splitSlash l, '/' ∉ seg := by
  induction l with
  | nil => simp [splitSlash]
  | cons c cs ih =>
    unfold splitSlash
    split
    · intro seg hseg
      simp only [List.mem_cons] at hseg
      rcases hseg with h | h
      · simp [h]
      · exact ih seg h
    · rename_i hc
      split
      · intro seg hseg
        simp at hseg
        subst hseg
        simpa using fun e => hc e.symm
      · rename_i seg0 segs heq
        intro seg hseg
        simp only [List.mem_cons] at hseg
        rcases hseg with h | h
        · subst h
          have := ih seg0 (by simp [heq])
          simp only [List.mem_cons, not_or]
          exact ⟨fun e => hc e.symm, this⟩
        · exact ih seg (by simp [heq, h])

theorem joinSlash_splitSlash (l : List Char) : joinSlash (splitSlash l) = l := by
  induction l with
  | nil => simp [splitSlash, joinSlash]
  | cons c cs ih =>
    unfold splitSlash
    split
    · rename_i hc
      cases hs : splitSlash cs with
      | nil => exact absurd hs (splitSlash_ne_nil cs)
      | cons a rest =>
        rw [hs] at ih
        simp [joinSlash, ih, hc]
    · split
      · rename_i heq
        exact absurd heq (splitSlash_ne_nil cs)
      · rename_i seg segs heq
        rw [heq] at ih
        cases segs with
        | nil => simpa [joinSlash] using ih
        | cons b rest =>
          simp only [joinSlash] at ih ⊢
          simp [← ih]

theorem joinSlash_concat (xs : List (List Char)) (y : List Char) (h : xs ≠ []) :
    joinSlash (xs ++ [y]) = joinSlash xs ++ '/' :: y := by
  induction xs with
  | nil => exact absurd rfl h
  | cons a rest ih =>
    cases rest with
    | nil => simp [joinSlash]
    | cons b rest2 =>
      have := ih (by simp)
      simp only [List.cons_append, joinSlash] at this ⊢
      simp [this]

theorem splitSlash_length_of_mem (l : List Char) (h : '/' ∈ l) : 2 ≤ (splitSlash l).length := by
  induction l with
  | nil => simp at h
  | cons c cs ih =>
    unfold splitSlash
    split
    · have := splitSlash_ne_nil cs
      cases hs : splitSlash cs with
      | nil => exact absurd hs this
      | cons a r => simp
    · rename_i hc
      have hcs : '/' ∈ cs := by
        simp only [List.mem_cons] at h
        rcases h with h | h
        · exact absurd h.symm hc
        · exact h
      have := ih hcs
      split
      · rename_i heq; simp [heq] at this
      · rename_i seg segs heq; simpa [heq] using this


theorem splitIdent_eq (s : String) :
    splitIdent s = some (String.mk (joinSlash (splitSlash s.data).dropLast),
      String.mk ((splitSlash s.data).getLast (splitSlash_ne_nil s.data))) := by
  unfold splitIdent
  simp only
  rw [List.getLast?_eq_getLast _ (splitSlash_ne_nil s.data)]

/-- C7: `isExcluded l n` is true exactly when `n` is an element of `l`, the
comparison being equality of strings; so `"Foo"` does not exclude `"foo"`, and
the empty list excludes nothing. -/
theorem isExcluded_iff_mem (l : List String) (n : String) :
    (isExcluded l n = true ↔ n ∈ l) ∧ isExcluded ["Foo"] "foo" = false ∧
      isExcluded [] n = false := by
  refine ⟨?_, by decide, rfl⟩
  induction l with
  | nil => simp [isExcluded]
  | cons a l ih =>
    unfold isExcluded
    by_cases h : a = n
    · simp [h]
    · have h2 : ¬ n = a := fun e => h e.symm
      simp [h, h2, ih]

/-- C10: for every identifier `s` the split of `getAzDOClient` returns a pair
`(org, project)` (it never panics); `project` has no `/`; when `s` has no `/`
then `org` is empty and `project` is `s`; when `s` has a `/` then
`org ++ "/" ++ project = s`, so that `project` is what follows the last `/` and
`org` what precedes it. `getAzDOClient` builds its connection from that `org`
and returns that `project`. And `https://dev.azure.com/acme/proj` gives
`https://dev.azure.com/acme` and `proj`. -/
theorem splitIdent_last_segment (s : String) :
    (∃ org project, splitIdent s = some (org, project) ∧
      '/' ∉ project.data ∧
      ('/' ∉ s.data → org = "" ∧ project = s) ∧
      ('/' ∈ s.data → org ++ "/" ++ project = s) ∧
      (∀ (W : World) (typ auth : String) (exclude : List String),
        getAzDOClient W ⟨typ, s, auth, exclude⟩ =
          ⟨[Call.azdoNewClient org auth],
            if W.azdoNewClient org auth then Outcome.ok (project, org) else Outcome.fatal⟩)) ∧
    splitIdent "https://dev.azure.com/acme/proj"
      = some ("https://dev.azure.com/acme", "proj") := by
  refine ⟨⟨_, _, splitIdent_eq s, ?_, ?_, ?_, ?_⟩, by decide⟩
  · exact splitSlash_segments s.data _ (List.getLast_mem _)
  · intro h
    have hs := splitSlash_of_not_mem s.data h
    constructor
    · simp [hs, joinSlash]
    · simp [hs]
  · intro h
    have hlen := splitSlash_length_of_mem s.data h
    have hne := splitSlash_ne_nil s.data
    have hdl : (splitSlash s.data).dropLast ≠ [] := by
      intro e
      have := congrArg List.length e
      simp at this
      omega
    have hj := joinSlash_splitSlash s.data
    rw [← List.dropLast_append_getLast hne, joinSlash_concat _ _ hdl] at hj
    apply String.ext
    simp only [String.data_append]
    simpa using hj
  · intro W typ auth exclude
    unfold getAzDOClient
    simp only [splitIdent_eq s]
    split_ifs <;> rfl

/-! ## Lemmas on the resolvers -/

theorem isExcluded_eq_decide (l : List String) (n : String) :
    isExcluded l n = decide (n ∈ l) := by
  induction l with
  | nil => simp [isExcluded]
  | cons a l ih =>
    unfold isExcluded
    by_cases h : a = n
    · simp [h]
    · have h2 : ¬ n = a := fun e => h e.symm
      simp [h, h2, ih]

theorem githubRepos_eq (W : World) (s : source) (cands : List GithubRepository)
    (acc : List repository) :
    githubRepos W s cands acc = (githubProbes s cands, acc ++ githubIncluded W s cands) := by
  induction cands generalizing acc with
  | nil => simp [githubRepos, githubProbes, githubIncluded]
  | cons c rest ih =>
    unfold githubRepos
    simp only [ih]
    cases ha : c.Archived <;>
    cases hf : (W.githubGetContents s.SourceAuth s.SourceIdent c.Name composerPath).file <;>
    cases he : (W.githubGetContents s.SourceAuth s.SourceIdent c.Name composerPath).err <;>
    by_cases hx : c.Name ∈ s.Exclude <;>
    simp [prepareGithubRepo, githubProbes, githubIncluded, specIncluded, Probe.succeeded,
      specRecord, isExcluded_eq_decide, ha, hf, he, hx]

theorem gitlabRepos_eq (W : World) (s : source) (cands : List GitlabProject)
    (acc : List repository) :
    gitlabRepos W s cands acc = (gitlabProbes s cands, acc ++ gitlabIncluded W s cands) := by
  induction cands generalizing acc with
  | nil => simp [gitlabRepos, gitlabProbes, gitlabIncluded]
  | cons c rest ih =>
    unfold gitlabRepos
    simp only [ih]
    cases ha : c.Archived <;>
    cases hf : (W.gitlabGetFile s.SourceAuth c.ID composerPath c.DefaultBranch).file <;>
    cases he : (W.gitlabGetFile s.SourceAuth c.ID composerPath c.DefaultBranch).err <;>
    by_cases hx : c.Name ∈ s.Exclude <;>
    simp [prepareGitlabRepo, gitlabProbes, gitlabIncluded, specIncluded, Probe.succeeded,
      specRecord, isExcluded_eq_decide, ha, hf, he, hx]

theorem azdoRepos_eq (W : World) (s : source) (client : String) (cands : List GitRepository)
    (acc : List repository) :
    azdoRepos W s client cands acc
      = (azdoProbes s client cands, acc ++ azdoIncluded W s client cands) := by
  induction cands generalizing acc with
  | nil => simp [azdoRepos, azdoProbes, azdoIncluded]
  | cons c rest ih =>
    unfold azdoRepos
    simp only [ih]
    cases hf : (W.azdoGetItem client s.SourceAuth c.Id ("/" ++ composerPath)).file <;>
    cases he : (W.azdoGetItem client s.SourceAuth c.Id ("/" ++ composerPath)).err <;>
    by_cases hx : c.Name ∈ s.Exclude <;>
    simp [prepareAzDORepo, azdoProbes, azdoIncluded, specIncluded, Probe.succeeded,
      specRecord, isExcluded_eq_decide, hf, he, hx]


/-! ## Lemmas on the paginated loops -/

theorem wrapInt64_eq (x : Int) (h1 : -2 ^ 63 ≤ x) (h2 : x < 2 ^ 63) : wrapInt64 x = x := by
  unfold wrapInt64
  omega

theorem range_succ_flatMap {β : Type} (k : Nat) (f : Nat → List β) :
    (List.range (k + 1)).flatMap f = f 0 ++ (List.range k).flatMap fun i => f (i + 1) := by
  rw [List.range_succ_eq_map, List.flatMap_cons, List.flatMap_map]

theorem parseGithubLoop_run (W : World) (s : source) (k : Nat) :
    ∀ (page : Int) (acc : List repository) (fuel : Nat),
      0 ≤ page → page + k < 2 ^ 63 →
      (∀ i : Nat, i < k → ∃ r,
        (W.githubListByOrg s.SourceAuth s.SourceIdent (page + i) 100).response = some r ∧
          r.NextPage ≠ 0) →
      (∃ r, (W.githubListByOrg s.SourceAuth s.SourceIdent (page + k) 100).response = some r ∧
          r.NextPage = 0) →
      k < fuel →
      parseGithubLoop W s fuel page acc =
        ⟨(List.range (k + 1)).flatMap fun i => githubPageCalls W s (page + i),
          Outcome.ok (acc ++ (List.range (k + 1)).flatMap fun i =>
            githubIncluded W s
              (W.githubListByOrg s.SourceAuth s.SourceIdent (page + i) 100).repos)⟩ := by
  induction k with
  | zero =>
    intro page acc fuel _ _ _ hlast hfuel
    obtain ⟨r, hr, hz⟩ := hlast
    obtain ⟨f, rfl⟩ : ∃ f, fuel = f + 1 := ⟨fuel - 1, by omega⟩
    simp only [Nat.cast_zero, add_zero] at hr
    unfold parseGithubLoop
    simp [hr, hz, githubRepos_eq, githubPageCalls, List.range_succ_eq_map]
  | succ k ih =>
    intro page acc fuel hp hmax hmid hlast hfuel
    obtain ⟨f, rfl⟩ : ∃ f, fuel = f + 1 := ⟨fuel - 1, by omega⟩
    obtain ⟨r, hr, hnz⟩ := hmid 0 (by omega)
    simp only [Nat.cast_zero, add_zero] at hr
    have hw : wrapInt64 (page + 1) = page + 1 := by
      apply wrapInt64_eq <;> push_cast at hmax <;> omega
    have hrec := ih (page + 1) (acc ++ githubIncluded W s
        (W.githubListByOrg s.SourceAuth s.SourceIdent page 100).repos) f (by omega)
      (by push_cast at hmax; omega)
      (fun i hi => by
        have := hmid (i + 1) (by omega)
        push_cast at this
        rwa [show page + 1 + (i : Int) = page + ((i : Int) + 1) by ring])
      (by
        obtain ⟨r2, h2, h3⟩ := hlast
        push_cast at h2
        exact ⟨r2, by rwa [show page + 1 + (k : Int) = page + ((k : Int) + 1) by ring], h3⟩)
      (by omega)
    unfold parseGithubLoop
    simp only [hr, hnz, if_false, githubRepos_eq, hw, hrec, Run.after]
    rw [range_succ_flatMap (k + 1), range_succ_flatMap (k + 1)]
    simp only [Nat.cast_zero, add_zero, githubPageCalls, List.cons_append, List.append_assoc,
      Nat.cast_add, Nat.cast_one]
    simp only [show ∀ i : Nat, page + 1 + (i : Int) = page + ((i : Int) + 1) from fun i => by ring]


theorem parseGitlabLoop_run (W : World) (s : source) (k : Nat) :
    ∀ (page : Int) (acc : List repository) (fuel : Nat),
      0 ≤ page → page + k < 2 ^ 63 →
      (∀ i : Nat, i < k → ∃ r,
        (W.gitlabListGroupProjects s.SourceAuth s.SourceIdent (page + i) 100).response
            = some r ∧ r.CurrentPage ≠ r.TotalPages) →
      (∃ r, (W.gitlabListGroupProjects s.SourceAuth s.SourceIdent (page + k) 100).response
            = some r ∧ r.CurrentPage = r.TotalPages) →
      k < fuel →
      parseGitlabLoop W s fuel page acc =
        ⟨(List.range (k + 1)).flatMap fun i => gitlabPageCalls W s (page + i),
          Outcome.ok (acc ++ (List.range (k + 1)).flatMap fun i =>
            gitlabIncluded W s
              (W.gitlabListGroupProjects s.SourceAuth s.SourceIdent (page + i) 100).projects)⟩ := by
  induction k with
  | zero =>
    intro page acc fuel _ _ _ hlast hfuel
    obtain ⟨r, hr, hz⟩ := hlast
    obtain ⟨f, rfl⟩ : ∃ f, fuel = f + 1 := ⟨fuel - 1, by omega⟩
    simp only [Nat.cast_zero, add_zero] at hr
    unfold parseGitlabLoop
    simp [hr, hz, gitlabRepos_eq, gitlabPageCalls, List.range_succ_eq_map]
  | succ k ih =>
    intro page acc fuel hp hmax hmid hlast hfuel
    obtain ⟨f, rfl⟩ : ∃ f, fuel = f + 1 := ⟨fuel - 1, by omega⟩
    obtain ⟨r, hr, hnz⟩ := hmid 0 (by omega)
    simp only [Nat.cast_zero, add_zero] at hr
    have hw : wrapInt64 (page + 1) = page + 1 := by
      apply wrapInt64_eq <;> push_cast at hmax <;> omega
    have hrec := ih (page + 1) (acc ++ gitlabIncluded W s
        (W.gitlabListGroupProjects s.SourceAuth s.SourceIdent page 100).projects) f (by omega)
      (by push_cast at hmax; omega)
      (fun i hi => by
        have := hmid (i + 1) (by omega)
        push_cast at this
        rwa [show page + 1 + (i : Int) = page + ((i : Int) + 1) by ring])
      (by
        obtain ⟨r2, h2, h3⟩ := hlast
        push_cast at h2
        exact ⟨r2, by rwa [show page + 1 + (k : Int) = page + ((k : Int) + 1) by ring], h3⟩)
      (by omega)
    unfold parseGitlabLoop
    simp only [hr, hnz, if_false, gitlabRepos_eq, hw, hrec, Run.after]
    rw [range_succ_flatMap (k + 1), range_succ_flatMap (k + 1)]
    simp only [Nat.cast_zero, add_zero, gitlabPageCalls, List.cons_append, List.append_assoc,
      Nat.cast_add, Nat.cast_one]
    simp only [show ∀ i : Nat, page + 1 + (i : Int) = page + ((i : Int) + 1) from fun i => by ring]

theorem githubPagesRequested_pageCalls (W : World) (s : source) (page : Int) :
    githubPagesRequested (githubPageCalls W s page) = [page] := by
  simp [githubPagesRequested, githubPageCalls, githubProbes, List.filterMap_map,
    List.filterMap_cons]

theorem gitlabPagesRequested_pageCalls (W : World) (s : source) (page : Int) :
    gitlabPagesRequested (gitlabPageCalls W s page) = [page] := by
  simp [gitlabPagesRequested, gitlabPageCalls, gitlabProbes, List.filterMap_map,
    List.filterMap_cons]

theorem githubPagesRequested_flatMap (W : World) (s : source) (n : Nat) (f : Nat → Int) :
    githubPagesRequested ((List.range n).flatMap fun i => githubPageCalls W s (f i))
      = (List.range n).map f := by
  unfold githubPagesRequested
  rw [List.filterMap_flatMap]
  have : ∀ i, List.filterMap (fun c => match c with
      | Call.githubListByOrg _ _ page _ => some page
      | _ => none) (githubPageCalls W s (f i)) = [f i] :=
    fun i => githubPagesRequested_pageCalls W s (f i)
  simp only [this]
  induction List.range n with
  | nil => rfl
  | cons a l ih => simp [List.flatMap_cons, ih]

theorem gitlabPagesRequested_flatMap (W : World) (s : source) (n : Nat) (f : Nat → Int) :
    gitlabPagesRequested ((List.range n).flatMap fun i => gitlabPageCalls W s (f i))
      = (List.range n).map f := by
  unfold gitlabPagesRequested
  rw [List.filterMap_flatMap]
  have : ∀ i, List.filterMap (fun c => match c with
      | Call.gitlabListGroupProjects _ _ page _ => some page
      | _ => none) (gitlabPageCalls W s (f i)) = [f i] :=
    fun i => gitlabPagesRequested_pageCalls W s (f i)
  simp only [this]
  induction List.range n with
  | nil => rfl
  | cons a l ih => simp [List.flatMap_cons, ih]


/-! ## Pagination of the GitHub listing -/

theorem pagesUpTo_flatMap {β : Type} (n : Nat) (f : Int → List β) :
    (pagesUpTo n).flatMap f = (List.range n).flatMap fun i => f (1 + (i : Int)) := by
  unfold pagesUpTo
  rw [List.flatMap_map]
  simp only [add_comm]

theorem githubIncluded_length_of_all (W : World) (s : source) (cands : List GithubRepository)
    (h : ∀ c ∈ cands, specIncluded c.Archived
      (W.githubGetContents s.SourceAuth s.SourceIdent c.Name composerPath).succeeded
      (decide (c.Name ∈ s.Exclude)) = true) :
    (githubIncluded W s cands).length = cands.length := by
  unfold githubIncluded
  rw [List.length_map, List.filter_eq_self.2 h]

/-- C6: when the pages `1 .. N-1` of a GitHub listing announce a next page and
page `N` announces none (`N` at least 1 and a Go `int`), `parseGithub` with any
fuel of at least `N` returns, having requested the pages `1, 2, ..., N` once
each in that order, and its result is the concatenation over the `N` pages, the
last one included, of the candidates that pass the filter; with three pages of
one hundred passing candidates followed by an empty last page the result has
exactly 300 records. -/
theorem parseGithub_paginates (W : World) (s : source) (N fuel : Nat)
    (hN : 1 ≤ N) (hmax : (N : Int) < 2 ^ 63)
    (hmid : ∀ p : Int, 1 ≤ p → p < N → ∃ r,
      (W.githubListByOrg s.SourceAuth s.SourceIdent p 100).response = some r ∧
        r.NextPage ≠ 0)
    (hlast : ∃ r,
      (W.githubListByOrg s.SourceAuth s.SourceIdent N 100).response = some r ∧
        r.NextPage = 0)
    (hfuel : N ≤ fuel) :
    githubPagesRequested (parseGithub W fuel s).calls = pagesUpTo N ∧
    (parseGithub W fuel s).out = Outcome.ok ((pagesUpTo N).flatMap fun p =>
      githubIncluded W s (W.githubListByOrg s.SourceAuth s.SourceIdent p 100).repos) ∧
    (N = 4 →
      (∀ p ∈ [(1 : Int), 2, 3],
        (W.githubListByOrg s.SourceAuth s.SourceIdent p 100).repos.length = 100 ∧
        ∀ c ∈ (W.githubListByOrg s.SourceAuth s.SourceIdent p 100).repos,
          specIncluded c.Archived
            (W.githubGetContents s.SourceAuth s.SourceIdent c.Name composerPath).succeeded
            (decide (c.Name ∈ s.Exclude)) = true) →
      (W.githubListByOrg s.SourceAuth s.SourceIdent 4 100).repos = [] →
      ∃ rs, (parseGithub W fuel s).out = Outcome.ok rs ∧ rs.length = 300) := by
  obtain ⟨k, rfl⟩ : ∃ k, N = k + 1 := ⟨N - 1, by omega⟩
  have hrun := parseGithubLoop_run W s k 1 [] fuel (by omega)
    (by push_cast at hmax; omega)
    (fun i hi => hmid (1 + i) (by omega) (by push_cast; omega))
    (by
      obtain ⟨r, h1, h2⟩ := hlast
      push_cast at h1
      exact ⟨r, by rwa [add_comm], h2⟩)
    (by omega)
  have hout : (parseGithub W fuel s).out = Outcome.ok ((pagesUpTo (k + 1)).flatMap fun p =>
      githubIncluded W s (W.githubListByOrg s.SourceAuth s.SourceIdent p 100).repos) := by
    unfold parseGithub
    rw [hrun, pagesUpTo_flatMap]
    simp
  refine ⟨?_, hout, ?_⟩
  · unfold parseGithub
    rw [hrun]
    simp only
    rw [githubPagesRequested_flatMap W s (k + 1) (fun i => 1 + (i : Int))]
    unfold pagesUpTo
    simp only [add_comm]
  · intro h4 hfull hempty
    refine ⟨_, hout, ?_⟩
    obtain rfl : k = 3 := by omega
    have h1 := hfull 1 (by simp)
    have h2 := hfull 2 (by simp)
    have h3 := hfull 3 (by simp)
    simp [pagesUpTo, List.range_succ_eq_map, List.flatMap_cons, hempty,
      githubIncluded_length_of_all W s _ h1.2, githubIncluded_length_of_all W s _ h2.2,
      githubIncluded_length_of_all W s _ h3.2, h1.1, h2.1, h3.1]
    simp [githubIncluded]

/-- Witness of C6: three GitHub pages of one hundred candidates and an empty
fourth page give the pages 1 to 4 and 300 records. -/
theorem parseGithub_paginates_witness :
    githubPagesRequested (parseGithub pagedWorld 4 acme).calls = [1, 2, 3, 4] ∧
    ∃ rs, (parseGithub pagedWorld 4 acme).out = Outcome.ok rs ∧ rs.length = 300 := by
  have h := parseGithub_paginates pagedWorld acme 4 4 (by decide) (by decide)
    (fun p h1 h2 => by
      have h3 : p = 1 ∨ p = 2 ∨ p = 3 := by push_cast at h2; omega
      refine ⟨⟨p + 1⟩, ?_, ?_⟩
      · simp [pagedWorld, h3]
      · show p + 1 ≠ 0
        omega)
    ⟨⟨0⟩, by simp [pagedWorld], rfl⟩ (by decide)
  refine ⟨by simpa [pagesUpTo, List.range_succ_eq_map] using h.1, h.2.2 rfl ?_ ?_⟩
  · intro p hp
    simp only [List.mem_cons, List.mem_singleton, List.not_mem_nil, or_false] at hp
    have hrepos : (pagedWorld.githubListByOrg acme.SourceAuth acme.SourceIdent p 100).repos
        = List.replicate 100 appCandidate := by
      simp [pagedWorld, hp]
    rw [hrepos]
    refine ⟨by simp, ?_⟩
    intro c hc
    rw [List.eq_of_mem_replicate hc]
    decide
  · simp [pagedWorld]


/-! ## The filter of the resolvers -/

/-- C1: when the provider of a source answers the listing in one successful
page of candidates, the resolver of that source (`parseGithub`, `parseGitlab`,
`parseAzDO`) returns exactly the candidates that are not archived, whose marker
file was returned without error and whose name is not excluded, each as the
record of its name, the type `git`, its SSH URL and no options, in the order of
the listing; Azure DevOps candidates are never archived. Of the eight
combinations of (archived, probe, excluded) only (false, true, false) is
included. -/
theorem resolvers_include_iff (W : World) (fuel : Nat) (hfuel : 1 ≤ fuel) :
    (∀ (s : source) (cands : List GithubRepository),
      W.githubListByOrg s.SourceAuth s.SourceIdent 1 100 = ⟨cands, some ⟨0⟩, false⟩ →
      (parseGithub W fuel s).out = Outcome.ok (githubIncluded W s cands)) ∧
    (∀ (s : source) (cands : List GitlabProject) (r : GitlabResponse),
      W.gitlabNewClient s.SourceAuth = true →
      W.gitlabListGroupProjects s.SourceAuth s.SourceIdent 1 100 = ⟨cands, some r, false⟩ →
      r.CurrentPage = r.TotalPages →
      (parseGitlab W fuel s).out = Outcome.ok (gitlabIncluded W s cands)) ∧
    (∀ (s : source) (cands : List GitRepository) (org project : String),
      splitIdent s.SourceIdent = some (org, project) →
      W.azdoNewClient org s.SourceAuth = true →
      W.azdoGetRepositories org s.SourceAuth project = ⟨some cands, false⟩ →
      (parseAzDO W s).out = Outcome.ok (azdoIncluded W s org cands)) ∧
    (∀ archived probe excluded : Bool,
      specIncluded archived probe excluded = true ↔
        archived = false ∧ probe = true ∧ excluded = false) := by
  obtain ⟨f, rfl⟩ : ∃ f, fuel = f + 1 := ⟨fuel - 1, by omega⟩
  refine ⟨?_, ?_, ?_, ?_⟩
  · intro s cands h
    unfold parseGithub parseGithubLoop
    simp [h, githubRepos_eq]
  · intro s cands r hnew h hr
    unfold parseGitlab parseGitlabLoop
    simp [hnew, h, hr, gitlabRepos_eq]
  · intro s cands org project hsplit hnew h
    unfold parseAzDO getAzDOClient
    simp [hsplit, hnew, h, Run.bind, Run.after, azdoRepos_eq]
  · intro a p e
    cases a <;> cases p <;> cases e <;> simp [specIncluded]

/-- Witness of C1: in the scenario of the specification each of the three
resolvers keeps `app` alone, `legacy` being excluded, `old` archived and `bare`
without marker file. -/
theorem resolvers_include_iff_witness :
    (parseGithub scenarioWorld 1 acme).out
      = Outcome.ok [⟨"app", "git", "git@github.com:acme/app.git", JSON.null⟩] ∧
    (parseGitlab scenarioWorld 1 acmeGroup).out
      = Outcome.ok [⟨"app", "git", "git@gitlab.com:acme/app.git", JSON.null⟩] ∧
    (parseAzDO scenarioWorld acmeProject).out
      = Outcome.ok [⟨"app", "git", "git@ssh.dev.azure.com:v3/acme/proj/app", JSON.null⟩] := by
  have h := resolvers_include_iff scenarioWorld 1 (le_refl 1)
  exact ⟨h.1 acme _ rfl, h.2.1 acmeGroup _ ⟨1, 1⟩ rfl rfl rfl,
    h.2.2.1 acmeProject _ "https://dev.azure.com/acme" "proj" (by decide) rfl rfl⟩


/-! ## Pagination of the GitLab listing -/

theorem gitlabPagesRequested_append (a b : List Call) :
    gitlabPagesRequested (a ++ b) = gitlabPagesRequested a ++ gitlabPagesRequested b := by
  unfold gitlabPagesRequested
  rw [List.filterMap_append]

theorem parseGitlabLoop_step (W : World) (s : source) (fuel : Nat) (page : Int)
    (acc : List repository) (r : GitlabResponse)
    (hr : (W.gitlabListGroupProjects s.SourceAuth s.SourceIdent page 100).response = some r) :
    parseGitlabLoop W s (fuel + 1) page acc =
      if r.CurrentPage = r.TotalPages then
        ⟨gitlabPageCalls W s page, Outcome.ok (acc ++ gitlabIncluded W s
          (W.gitlabListGroupProjects s.SourceAuth s.SourceIdent page 100).projects)⟩
      else
        Run.after (gitlabPageCalls W s page)
          (parseGitlabLoop W s fuel (wrapInt64 (page + 1)) (acc ++ gitlabIncluded W s
            (W.gitlabListGroupProjects s.SourceAuth s.SourceIdent page 100).projects)) := by
  conv_lhs => unfold parseGitlabLoop
  simp only [hr, gitlabRepos_eq, gitlabPageCalls]

theorem parseGitlabLoop_calls_head (W : World) (s : source) (fuel : Nat) (page : Int)
    (acc : List repository) :
    ∃ rest, gitlabPagesRequested (parseGitlabLoop W s (fuel + 1) page acc).calls
      = page :: rest := by
  cases hr : (W.gitlabListGroupProjects s.SourceAuth s.SourceIdent page 100).response with
  | none =>
    refine ⟨[], ?_⟩
    unfold parseGitlabLoop
    simp only [hr, gitlabRepos_eq]
    exact gitlabPagesRequested_pageCalls W s page
  | some r =>
    rw [parseGitlabLoop_step W s fuel page acc r hr]
    by_cases h : r.CurrentPage = r.TotalPages
    · exact ⟨[], by simp only [h, if_true]; exact gitlabPagesRequested_pageCalls W s page⟩
    · refine ⟨gitlabPagesRequested (parseGitlabLoop W s fuel (wrapInt64 (page + 1))
        (acc ++ gitlabIncluded W s
          (W.gitlabListGroupProjects s.SourceAuth s.SourceIdent page 100).projects)).calls, ?_⟩
      simp only [h, if_false, Run.after, gitlabPagesRequested_append,
        gitlabPagesRequested_pageCalls]
      rfl

/-- C9, as amended: after a listing response `parseGitlab` requests a further
page if and only if the current page of the response differs from its total
page count. On a response whose current page equals the total it returns with
what it has collected, sending no further listing request; on any other
response it goes on with the next page. So when the pages `1 .. N-1` answer with
a current page different from the total and page `N` with equal ones,
`parseGitlab` with fuel of at least `N` returns after requesting exactly the
pages `1, ..., N`. -/
theorem parseGitlab_continues_iff (W : World) (s : source) (fuel : Nat) (page : Int)
    (acc : List repository) (r : GitlabResponse)
    (hr : (W.gitlabListGroupProjects s.SourceAuth s.SourceIdent page 100).response = some r) :
    (1 < (gitlabPagesRequested (parseGitlabLoop W s (fuel + 2) page acc).calls).length ↔
      r.CurrentPage ≠ r.TotalPages) ∧
    (r.CurrentPage = r.TotalPages →
      parseGitlabLoop W s (fuel + 1) page acc =
        ⟨gitlabPageCalls W s page, Outcome.ok (acc ++ gitlabIncluded W s
          (W.gitlabListGroupProjects s.SourceAuth s.SourceIdent page 100).projects)⟩) ∧
    (r.CurrentPage ≠ r.TotalPages →
      parseGitlabLoop W s (fuel + 1) page acc =
        Run.after (gitlabPageCalls W s page)
          (parseGitlabLoop W s fuel (wrapInt64 (page + 1)) (acc ++ gitlabIncluded W s
            (W.gitlabListGroupProjects s.SourceAuth s.SourceIdent page 100).projects))) ∧
    (∀ N : Nat, 1 ≤ N → (N : Int) < 2 ^ 63 → N ≤ fuel →
      W.gitlabNewClient s.SourceAuth = true →
      (∀ p : Int, 1 ≤ p → p < N → ∃ q,
        (W.gitlabListGroupProjects s.SourceAuth s.SourceIdent p 100).response = some q ∧
          q.CurrentPage ≠ q.TotalPages) →
      (∃ q, (W.gitlabListGroupProjects s.SourceAuth s.SourceIdent N 100).response = some q ∧
          q.CurrentPage = q.TotalPages) →
      gitlabPagesRequested (parseGitlab W fuel s).calls = pagesUpTo N ∧
      (parseGitlab W fuel s).out = Outcome.ok ((pagesUpTo N).flatMap fun p =>
        gitlabIncluded W s
          (W.gitlabListGroupProjects s.SourceAuth s.SourceIdent p 100).projects)) := by
  refine ⟨?_, ?_, ?_, ?_⟩
  · rw [parseGitlabLoop_step W s (fuel + 1) page acc r hr]
    by_cases h : r.CurrentPage = r.TotalPages
    · simp [h, gitlabPagesRequested_pageCalls]
    · obtain ⟨rest, hrest⟩ := parseGitlabLoop_calls_head W s fuel (wrapInt64 (page + 1))
        (acc ++ gitlabIncluded W s
          (W.gitlabListGroupProjects s.SourceAuth s.SourceIdent page 100).projects)
      simp [h, Run.after, gitlabPagesRequested_append, gitlabPagesRequested_pageCalls, hrest]
  · intro h
    rw [parseGitlabLoop_step W s fuel page acc r hr, if_pos h]
  · intro h
    rw [parseGitlabLoop_step W s fuel page acc r hr, if_neg h]
  · intro N hN hmax hfuel hnew hmid hlast
    obtain ⟨k, rfl⟩ : ∃ k, N = k + 1 := ⟨N - 1, by omega⟩
    have hrun := parseGitlabLoop_run W s k 1 [] fuel (by omega)
      (by push_cast at hmax; omega)
      (fun i hi => hmid (1 + i) (by omega) (by push_cast; omega))
      (by
        obtain ⟨q, h1, h2⟩ := hlast
        push_cast at h1
        exact ⟨q, by rwa [add_comm], h2⟩)
      (by omega)
    unfold parseGitlab
    rw [if_pos hnew, hrun]
    refine ⟨?_, ?_⟩
    · simp only
      rw [gitlabPagesRequested_flatMap W s (k + 1) (fun i => 1 + (i : Int))]
      unfold pagesUpTo
      simp only [add_comm]
    · rw [pagesUpTo_flatMap]
      simp

/-- Witness of C9 as amended: on page 1 of 2 the loop goes on to page 2, and
the whole run requests the pages 1 and 2 and returns both projects. -/
theorem parseGitlab_continues_iff_witness :
    (1 < (gitlabPagesRequested (parseGitlabLoop twoPageWorld acmeGroup 2 1 []).calls).length ↔
      (1 : Int) ≠ 2) ∧
    gitlabPagesRequested (parseGitlab twoPageWorld 2 acmeGroup).calls = [1, 2] ∧
    (parseGitlab twoPageWorld 2 acmeGroup).out = Outcome.ok
      [⟨"app", "git", "git@gitlab.com:acme/app.git", JSON.null⟩,
        ⟨"tool", "git", "git@gitlab.com:acme/tool.git", JSON.null⟩] := by
  have h := parseGitlab_continues_iff twoPageWorld acmeGroup 0 1 [] ⟨1, 2⟩ rfl
  have h2 := parseGitlab_continues_iff twoPageWorld acmeGroup 2 1 [] ⟨1, 2⟩ rfl
  have h3 := h2.2.2.2 2 (by decide) (by decide) (le_refl 2) rfl
    (fun p h1 hp => by
      have hp1 : p = 1 := by push_cast at hp; omega
      subst hp1
      exact ⟨⟨1, 2⟩, rfl, by decide⟩)
    ⟨⟨2, 2⟩, rfl, rfl⟩
  exact ⟨h.1, h3.1, h3.2⟩

/-- Counterexample to C9: a response with current page 1 of 0 pages does not
stop `parseGitlab`; it requests page 2, and with every response of that kind it
never returns, whatever the fuel. -/
theorem parseGitlab_empty_group_loops :
    (emptyGroupWorld.gitlabListGroupProjects acmeGroup.SourceAuth acmeGroup.SourceIdent 1 100).response
      = some ⟨1, 0⟩ ∧
    gitlabPagesRequested (parseGitlab emptyGroupWorld 2 acmeGroup).calls = [1, 2] ∧
    ∀ fuel, (parseGitlab emptyGroupWorld fuel acmeGroup).out = Outcome.outOfFuel := by
  refine ⟨rfl, by decide, ?_⟩
  intro fuel
  have key : ∀ (f : Nat) (page : Int) (acc : List repository),
      (parseGitlabLoop emptyGroupWorld acmeGroup f page acc).out = Outcome.outOfFuel := by
    intro f
    induction f with
    | zero => intro page acc; rfl
    | succ f ih =>
      intro page acc
      rw [parseGitlabLoop_step emptyGroupWorld acmeGroup f page acc ⟨1, 0⟩ rfl]
      simp only [show ¬ ((1 : Int) = 0) by decide, if_false, Run.after]
      exact ih _ _
  unfold parseGitlab
  simp only [show emptyGroupWorld.gitlabNewClient acmeGroup.SourceAuth = true from rfl, if_true]
  exact key fuel 1 []


/-! ## The loop over the sources -/

theorem sourcesLoop_cons (W : World) (fuel : Nat) (s : source) (rest : List source)
    (acc : List repository) :
    sourcesLoop W fuel (s :: rest) acc =
      (resolve W fuel s).bind fun repos => sourcesLoop W fuel rest (acc ++ repos) := by
  unfold resolve
  conv_lhs => unfold sourcesLoop
  split_ifs <;> first | rfl | simp [Run.bind, Run.pure, Run.after]

theorem sourcesLoop_skip (W : World) (fuel : Nat) (s : source)
    (hs : s.SourceType ≠ "gitlab" ∧ s.SourceType ≠ "github" ∧ s.SourceType ≠ "azdo")
    (pre post : List source) :
    ∀ acc, sourcesLoop W fuel (pre ++ s :: post) acc = sourcesLoop W fuel (pre ++ post) acc := by
  induction pre with
  | nil =>
    intro acc
    simp only [List.nil_append]
    conv_lhs => unfold sourcesLoop
    simp [hs.1, hs.2.1, hs.2.2]
  | cons a pre ih =>
    intro acc
    simp only [List.cons_append, sourcesLoop_cons, ih]

theorem sourcesLoop_ok (W : World) (fuel : Nat) (results : source → List repository)
    (sources : List source) :
    (∀ s ∈ sources, (resolve W fuel s).out = Outcome.ok (results s)) →
    ∀ acc, sourcesLoop W fuel sources acc =
      ⟨sources.flatMap fun s => (resolve W fuel s).calls,
        Outcome.ok (acc ++ sources.flatMap results)⟩ := by
  induction sources with
  | nil =>
    intro _ acc
    simp [sourcesLoop, Run.pure]
  | cons s rest ih =>
    intro h acc
    have hs := h s (by simp)
    have hrest := ih (fun t ht => h t (by simp [ht]))
    rw [sourcesLoop_cons]
    unfold Run.bind
    rw [hs]
    simp [hrest, Run.after, List.flatMap_cons]

theorem decodeStatic_eq (W : World) (entries : List JSON) :
    ∀ acc, decodeStatic W entries acc = acc ++ entries.filterMap W.decodeRepository := by
  induction entries with
  | nil => intro acc; simp [decodeStatic]
  | cons v rest ih =>
    intro acc
    unfold decodeStatic
    cases h : W.decodeRepository v with
    | none => simp [ih, List.filterMap_cons, h]
    | some r => simp [ih, List.filterMap_cons, h]

theorem filterMap_of_map_eq_some {α β : Type} (f : α → Option β) (l : List α) (r : List β)
    (h : l.map f = r.map some) : l.filterMap f = r := by
  induction l generalizing r with
  | nil =>
    cases r with
    | nil => rfl
    | cons b r => simp at h
  | cons a l ih =>
    cases r with
    | nil => simp at h
    | cons b r =>
      simp only [List.map_cons, List.cons.injEq] at h
      simp [List.filterMap_cons, h.1, ih r h.2]

/-- C8, as amended: a source whose type is none of `gitlab`, `github`, `azdo`
is skipped: its iteration of the loop sends no request, adds no repository and
does not abort; the run of `parseSources` on what `parseInput` returned is the
same, in requests and in outcome, with that source as without it; and
`parseSources` gives the same run on the configuration with that source and on
the configuration without it whenever `parseInput` accepts the latter too, which
it does not when no source is left. -/
theorem parseSources_skips_unknown_type (W : World) (fuel : Nat) (output : GoMap)
    (pre post : List source) (s : source)
    (hs : s.SourceType ≠ "gitlab" ∧ s.SourceType ≠ "github" ∧ s.SourceType ≠ "azdo") :
    (∀ repositories, sourcesLoop W fuel [s] repositories = Run.pure repositories) ∧
    parseSourcesFrom W fuel output (pre ++ s :: post)
      = parseSourcesFrom W fuel output (pre ++ post) ∧
    (∀ cfg cfg2 : Option JSON,
      parseInput W cfg = Outcome.ok (output, pre ++ s :: post) →
      parseInput W cfg2 = Outcome.ok (output, pre ++ post) →
      parseSources W fuel cfg = parseSources W fuel cfg2) := by
  have hfrom : parseSourcesFrom W fuel output (pre ++ s :: post)
      = parseSourcesFrom W fuel output (pre ++ post) := by
    unfold parseSourcesFrom
    simp only [sourcesLoop_skip W fuel s hs pre post]
  refine ⟨?_, hfrom, ?_⟩
  · intro repositories
    have := sourcesLoop_skip W fuel s hs [] [] repositories
    simpa [sourcesLoop] using this
  · intro cfg cfg2 h1 h2
    unfold parseSources
    rw [h1, h2]
    simp only [Run.bind, Run.lift, hfrom]


/-- Counterexample to C8: with the source of type `svn` as the only source
`parseSources` returns the configuration with the static repository, while the
same configuration with that source removed, whose `sources` is then the empty
array, is fatal in `parseInput`; the two runs differ. -/
theorem parseSources_only_unknown_source :
    (svnSource.SourceType ≠ "gitlab" ∧ svnSource.SourceType ≠ "github" ∧
      svnSource.SourceType ≠ "azdo") ∧
    parseSources scenarioWorld 1 (some (configWith [svnSource])) =
      ⟨[], Outcome.ok [("name", GoValue.json (JSON.string "acme/satis")),
        ("homepage", GoValue.json (JSON.string "https://satis.example")),
        ("require-all", GoValue.json (JSON.bool true)),
        ("repositories", GoValue.repositories
          [⟨"app", "vcs", "https://git.example/app.git",
            JSON.object [("depth", JSON.number "1")]⟩])]⟩ ∧
    parseSources scenarioWorld 1 (some (configWith ([svnSource].erase svnSource))) =
      ⟨[], Outcome.fatal⟩ ∧
    parseSources scenarioWorld 1 (some (configWith [svnSource])) ≠
      parseSources scenarioWorld 1 (some (configWith ([svnSource].erase svnSource))) := by
  have h1 : parseSources scenarioWorld 1 (some (configWith [svnSource])) =
      ⟨[], Outcome.ok [("name", GoValue.json (JSON.string "acme/satis")),
        ("homepage", GoValue.json (JSON.string "https://satis.example")),
        ("require-all", GoValue.json (JSON.bool true)),
        ("repositories", GoValue.repositories
          [⟨"app", "vcs", "https://git.example/app.git",
            JSON.object [("depth", JSON.number "1")]⟩])]⟩ := rfl
  have h2 : parseSources scenarioWorld 1 (some (configWith ([svnSource].erase svnSource))) =
      ⟨[], Outcome.fatal⟩ := rfl
  refine ⟨by decide, h1, h2, ?_⟩
  intro h
  rw [h1, h2] at h
  have h3 := congrArg Run.out h
  cases h3

/-! ## Lemmas on maps and on `parseInput` -/

theorem GoMap.get_delete_self (m : GoMap) (k : String) : (m.delete k).get k = none := by
  unfold GoMap.get GoMap.delete
  induction m with
  | nil => rfl
  | cons kv m ih =>
    obtain ⟨a, b⟩ := kv
    by_cases h : a = k
    · subst h
      simp [List.filter_cons, ih]
    · simp [List.filter_cons, h, List.find?_cons, ih]

theorem GoMap.get_delete_ne (m : GoMap) (k k2 : String) (hk : k ≠ k2) :
    (m.delete k2).get k = m.get k := by
  unfold GoMap.get GoMap.delete
  induction m with
  | nil => rfl
  | cons kv m ih =>
    obtain ⟨a, b⟩ := kv
    by_cases h : a = k2
    · subst h
      have h2 : ¬ a = k := fun e => hk e.symm
      simpa [List.filter_cons, List.find?_cons, h2] using ih
    · by_cases h3 : a = k
      · subst h3
        simp [List.filter_cons, h, List.find?_cons]
      · simpa [List.filter_cons, h, List.find?_cons, h3] using ih

theorem GoMap.get_set_ne (m : GoMap) (k k2 : String) (v : GoValue) (hk : k ≠ k2) :
    (m.set k2 v).get k = m.get k := by
  have h := GoMap.get_delete_ne m k k2 hk
  unfold GoMap.get GoMap.delete at h
  unfold GoMap.get GoMap.set
  rw [List.find?_append, ← h]
  have h2 : ¬ k2 = k := fun e => hk e.symm
  cases hf : List.find? (fun kv => decide (kv.1 = k))
      (List.filter (fun kv => decide ¬kv.1 = k2) m) with
  | none => simp [List.find?_cons, h2]
  | some x => simp

theorem GoMap.get_set_self (m : GoMap) (k : String) (v : GoValue) :
    (m.set k v).get k = some v := by
  have h := GoMap.get_delete_self m k
  unfold GoMap.get GoMap.delete at h
  unfold GoMap.get GoMap.set
  rw [List.find?_append]
  cases hf : List.find? (fun kv => decide (kv.1 = k))
      (List.filter (fun kv => decide ¬kv.1 = k) m) with
  | none => simp [List.find?_cons]
  | some x => rw [hf] at h; simp at h

theorem GoMap.mem_keys_delete (m : GoMap) (k k2 : String) :
    k ∈ (m.delete k2).keys ↔ k ∈ m.keys ∧ k ≠ k2 := by
  unfold GoMap.keys GoMap.delete
  simp only [List.mem_map, List.mem_filter, decide_eq_true_eq]
  constructor
  · rintro ⟨a, ⟨ha, hne⟩, rfl⟩
    exact ⟨⟨a, ha, rfl⟩, hne⟩
  · rintro ⟨⟨a, ha, rfl⟩, hne⟩
    exact ⟨a, ⟨ha, hne⟩, rfl⟩

theorem GoMap.mem_keys_set (m : GoMap) (k k2 : String) (v : GoValue) :
    k ∈ (m.set k2 v).keys ↔ (k ∈ m.keys ∧ k ≠ k2) ∨ k = k2 := by
  have h := GoMap.mem_keys_delete m k k2
  unfold GoMap.keys GoMap.delete at h
  unfold GoMap.keys GoMap.set
  rw [List.map_append, List.mem_append, h]
  simp [GoMap.keys]

theorem GoMap.index_eq_of_get (m : GoMap) (k : String) (v : GoValue)
    (h : m.get k = some v) : m.index k = v := by
  simp [GoMap.index, h]

theorem checkRepositories_ok (m output : GoMap) (h : checkRepositories m = Outcome.ok output) :
    (∀ k, k ≠ "repositories" → output.get k = m.get k) ∧
    (∀ k, k ∈ output.keys → k = "repositories" ∨ k ∈ m.keys) ∧
    ((output.index "repositories" = GoValue.json JSON.null ∧
        (m.get "repositories" = none ∨
          m.get "repositories" = some (GoValue.json (JSON.array [])))) ∨
      ∃ items, items ≠ [] ∧ m.get "repositories" = some (GoValue.json (JSON.array items)) ∧
        output.index "repositories" = GoValue.json (JSON.array items)) := by
  have hset : ∀ o, o = m.set "repositories" (GoValue.json JSON.null) →
      (∀ k, k ≠ "repositories" → o.get k = m.get k) ∧
      (∀ k, k ∈ o.keys → k = "repositories" ∨ k ∈ m.keys) ∧
      o.index "repositories" = GoValue.json JSON.null := by
    rintro o rfl
    refine ⟨fun k hk => GoMap.get_set_ne m k _ _ hk, fun k hk => ?_, ?_⟩
    · rcases (GoMap.mem_keys_set m k _ _).1 hk with h1 | h1
      · exact Or.inr h1.1
      · exact Or.inl h1
    · exact GoMap.index_eq_of_get _ _ _ (GoMap.get_set_self m _ _)
  unfold checkRepositories at h
  split at h
  · rename_i hget
    injection h with h
    obtain ⟨h1, h2, h3⟩ := hset output h.symm
    exact ⟨h1, h2, Or.inl ⟨h3, Or.inl hget⟩⟩
  · rename_i items hget
    by_cases hl : items.length = 0
    · rw [if_pos hl] at h
      injection h with h
      obtain ⟨h1, h2, h3⟩ := hset output h.symm
      have : items = [] := List.length_eq_zero.1 hl
      subst this
      exact ⟨h1, h2, Or.inl ⟨h3, Or.inr hget⟩⟩
    · rw [if_neg hl] at h
      injection h with h
      subst h
      refine ⟨fun _ _ => rfl, fun k hk => Or.inr hk, Or.inr ⟨items, ?_, hget, ?_⟩⟩
      · intro e; exact hl (by simp [e])
      · exact GoMap.index_eq_of_get _ _ _ hget
  · cases h

theorem parseInput_ok (W : World) (cfg : Option JSON) (output : GoMap) (sources : List source)
    (h : parseInput W cfg = Outcome.ok (output, sources)) :
    ∃ members, cfg = some (JSON.object members) ∧
      mapstructureDecodeSources W ((asMap members).index "sources") = some sources ∧
      checkRepositories ((asMap members).delete "sources") = Outcome.ok output := by
  unfold parseInput at h
  split at h
  · cases h
  · rename_i members
    refine ⟨members, rfl, ?_⟩
    simp only at h
    cases h1 : checkAttribute (asMap members) "name" <;> rw [h1] at h <;>
      simp only [Outcome.bind] at h <;> try cases h
    cases h2 : checkAttribute (asMap members) "homepage" <;> rw [h2] at h <;>
      simp only [Outcome.bind] at h <;> try cases h
    cases h3 : checkSources (asMap members) <;> rw [h3] at h <;>
      simp only [Outcome.bind] at h <;> try cases h
    cases h4 : mapstructureDecodeSources W ((asMap members).index "sources") with
    | none => rw [h4] at h; cases h
    | some srcs =>
      rw [h4] at h
      simp only at h
      cases h5 : checkRepositories ((asMap members).delete "sources") <;> rw [h5] at h <;>
        simp only [Outcome.bind] at h <;> try cases h
      exact ⟨rfl, rfl⟩
  · cases h

theorem staticRepositories_ok (W : World) (m output : GoMap)
    (h : checkRepositories m = Outcome.ok output) :
    ∃ entries, staticRepositories W output = Outcome.ok (entries.filterMap W.decodeRepository) ∧
      (m.get "repositories" = some (GoValue.json (JSON.array entries)) ∨
        (m.get "repositories" = none ∧ entries = [])) := by
  obtain ⟨-, -, h3⟩ := checkRepositories_ok m output h
  rcases h3 with ⟨hidx, hget⟩ | ⟨items, hne, hget, hidx⟩
  · refine ⟨[], ?_, ?_⟩
    · unfold staticRepositories
      rw [hidx]
      rfl
    · rcases hget with hget | hget
      · exact Or.inr ⟨hget, rfl⟩
      · exact Or.inl hget
  · refine ⟨items, ?_, Or.inl hget⟩
    unfold staticRepositories
    rw [hidx]
    have : items.length > 0 := List.length_pos.2 hne
    simp [this, decodeStatic_eq]


/-! ## The list that `parseSources` produces -/

theorem Run.bind_out_ok {α β : Type} (x : Run α) (f : α → Run β) (b : β)
    (h : (x.bind f).out = Outcome.ok b) : ∃ a, x.out = Outcome.ok a ∧ (f a).out = Outcome.ok b := by
  unfold Run.bind at h
  cases hx : x.out with
  | ok a =>
    rw [hx] at h
    exact ⟨a, rfl, h⟩
  | fatal => rw [hx] at h; cases h
  | panic => rw [hx] at h; cases h
  | outOfFuel => rw [hx] at h; cases h

theorem sourcesLoop_returns (W : World) (fuel : Nat) (sources : List source) :
    (∀ s ∈ sources, ∃ rs, (resolve W fuel s).out = Outcome.ok rs) →
    ∀ acc, ∃ rs, (sourcesLoop W fuel sources acc).out = Outcome.ok rs := by
  induction sources with
  | nil =>
    intro _ acc
    exact ⟨acc, rfl⟩
  | cons s rest ih =>
    intro h acc
    obtain ⟨rs, hrs⟩ := h s (by simp)
    obtain ⟨rs2, hrs2⟩ := ih (fun t ht => h t (by simp [ht])) (acc ++ rs)
    refine ⟨rs2, ?_⟩
    rw [sourcesLoop_cons]
    unfold Run.bind
    rw [hrs]
    exact hrs2

theorem entries_unique (m : GoMap) (e1 e2 : List JSON)
    (h1 : m.get "repositories" = some (GoValue.json (JSON.array e1)) ∨
      (m.get "repositories" = none ∧ e1 = []))
    (h2 : m.get "repositories" = some (GoValue.json (JSON.array e2)) ∨
      (m.get "repositories" = none ∧ e2 = [])) : e1 = e2 := by
  rcases h1 with h1 | ⟨h1, rfl⟩ <;> rcases h2 with h2 | ⟨h2, rfl⟩
  · rw [h1] at h2
    injection h2 with h2
    injection h2 with h2
    injection h2
  · rw [h1] at h2; cases h2
  · rw [h1] at h2; cases h2
  · rfl

/-- C2: for a configuration that `parseInput` accepts, whose static entries
all decode (to `statics`) and whose sources' resolvers all return (a source of
unknown type having the empty result), `parseSources` returns the configuration
with `repositories` set to the decoded static entries in their order, followed
by the results of the sources in the order of their declaration, each in the
order of its listing. Nothing is merged: a name occurs in the output as many
times as among the static entries plus as many times as in the results. -/
theorem parseSources_order (W : World) (fuel : Nat) (members : List (String × JSON))
    (output : GoMap) (sources : List source) (entries : List JSON)
    (statics : List repository) (results : source → List repository)
    (hin : parseInput W (some (JSON.object members)) = Outcome.ok (output, sources))
    (hentries : (asMap members).get "repositories" = some (GoValue.json (JSON.array entries)) ∨
      ((asMap members).get "repositories" = none ∧ entries = []))
    (hdecode : entries.map W.decodeRepository = statics.map some)
    (hres : ∀ s ∈ sources, (resolve W fuel s).out = Outcome.ok (results s)) :
    parseSources W fuel (some (JSON.object members)) =
      ⟨sources.flatMap fun s => (resolve W fuel s).calls,
        Outcome.ok (output.set "repositories"
          (GoValue.repositories (statics ++ sources.flatMap results)))⟩ ∧
    ∀ name : String,
      ((statics ++ sources.flatMap results).map repository.Name).count name =
        (statics.map repository.Name).count name +
          ((sources.flatMap results).map repository.Name).count name := by
  refine ⟨?_, fun name => by rw [List.map_append, List.count_append]⟩
  obtain ⟨members2, hm, -, hrep⟩ := parseInput_ok W _ output sources hin
  obtain rfl : members = members2 := by
    injection hm with hm
    injection hm
  obtain ⟨entries2, hstatic, hget⟩ := staticRepositories_ok W _ output hrep
  rw [GoMap.get_delete_ne _ _ _ (by decide)] at hget
  obtain rfl : entries = entries2 := entries_unique _ _ _ hentries hget
  rw [filterMap_of_map_eq_some _ _ _ hdecode] at hstatic
  unfold parseSources
  rw [hin]
  unfold parseSourcesFrom
  simp only [Run.bind, Run.lift, hstatic, sourcesLoop_ok W fuel results sources hres,
    Run.after, Run.pure, List.nil_append, List.append_nil]

/-- Witness of C2: the static `app`, then the `app` of the GitLab source, then
the `app` of the GitHub source; the name occurs three times. -/
theorem parseSources_order_witness :
    (parseSources scenarioWorld 1 (some (configWith [acmeGroup, acme]))).out =
      Outcome.ok [("name", GoValue.json (JSON.string "acme/satis")),
        ("homepage", GoValue.json (JSON.string "https://satis.example")),
        ("require-all", GoValue.json (JSON.bool true)),
        ("repositories", GoValue.repositories
          [⟨"app", "vcs", "https://git.example/app.git",
              JSON.object [("depth", JSON.number "1")]⟩,
            ⟨"app", "git", "git@gitlab.com:acme/app.git", JSON.null⟩,
            ⟨"app", "git", "git@github.com:acme/app.git", JSON.null⟩])] := by
  have h := (parseSources_order scenarioWorld 1 _ _ [acmeGroup, acme] [staticEntry]
    [⟨"app", "vcs", "https://git.example/app.git", JSON.object [("depth", JSON.number "1")]⟩]
    (fun s => if s.SourceType = "gitlab" then
        [⟨"app", "git", "git@gitlab.com:acme/app.git", JSON.null⟩]
      else [⟨"app", "git", "git@github.com:acme/app.git", JSON.null⟩])
    (rfl : parseInput scenarioWorld (some (configWith [acmeGroup, acme])) = Outcome.ok
      ([("name", GoValue.json (JSON.string "acme/satis")),
        ("homepage", GoValue.json (JSON.string "https://satis.example")),
        ("require-all", GoValue.json (JSON.bool true)),
        ("repositories", GoValue.json (JSON.array [staticEntry]))], [acmeGroup, acme]))
    (Or.inl rfl) rfl
    (fun s hs => by
      simp only [List.mem_cons, List.mem_singleton, List.not_mem_nil, or_false] at hs
      rcases hs with rfl | rfl <;> rfl)).1
  have h2 := congrArg Run.out h
  exact h2

/-- Witness of C8 as amended: with the source of type `svn` between the two
others the run is the run without it. -/
theorem parseSources_skips_unknown_type_witness :
    parseSources scenarioWorld 1 (some (configWith [acmeGroup, svnSource, acme])) =
      parseSources scenarioWorld 1 (some (configWith [acmeGroup, acme])) :=
  (parseSources_skips_unknown_type scenarioWorld 1
    [("name", GoValue.json (JSON.string "acme/satis")),
      ("homepage", GoValue.json (JSON.string "https://satis.example")),
      ("require-all", GoValue.json (JSON.bool true)),
      ("repositories", GoValue.json (JSON.array [staticEntry]))]
    [acmeGroup] [acme] svnSource (by decide)).2.2 _ _ rfl rfl


/-! ## The other keys of the configuration -/

/-- C3: when `parseInput` accepts a configuration, the configuration is an
object, and every object that `parseSources` returns for it has no key
`sources`, holds under every key other than `sources` and `repositories`
exactly what the input holds under it (nothing when the input has no such
key), and has no key beyond `repositories` and the input's keys other than
`sources`. When moreover the resolver of every source returns, `parseSources`
does return such an object. -/
theorem parseSources_frame (W : World) (fuel : Nat) (cfg : Option JSON) (output : GoMap)
    (sources : List source) (hin : parseInput W cfg = Outcome.ok (output, sources)) :
    ∃ members, cfg = some (JSON.object members) ∧
      (∀ out, (parseSources W fuel cfg).out = Outcome.ok out →
        out.get "sources" = none ∧
        (∀ k, k ≠ "sources" → k ≠ "repositories" → out.get k = (asMap members).get k) ∧
        (∀ k, k ∈ out.keys → k = "repositories" ∨ (k ≠ "sources" ∧ k ∈ (asMap members).keys))) ∧
      ((∀ s ∈ sources, ∃ rs, (resolve W fuel s).out = Outcome.ok rs) →
        ∃ out, (parseSources W fuel cfg).out = Outcome.ok out) := by
  obtain ⟨members, hm, -, hrep⟩ := parseInput_ok W cfg output sources hin
  obtain ⟨hget, hkeys, -⟩ := checkRepositories_ok _ output hrep
  obtain ⟨entries, hstatic, -⟩ := staticRepositories_ok W _ output hrep
  refine ⟨members, hm, ?_, ?_⟩
  · intro out hout
    unfold parseSources at hout
    rw [hin] at hout
    simp only [Run.bind, Run.lift, Run.after] at hout
    unfold parseSourcesFrom at hout
    obtain ⟨r1, -, hout⟩ := Run.bind_out_ok _ _ _ hout
    obtain ⟨r2, -, hout⟩ := Run.bind_out_ok _ _ _ hout
    simp only [Run.pure] at hout
    injection hout with hout
    subst hout
    refine ⟨?_, ?_, ?_⟩
    · rw [GoMap.get_set_ne _ _ _ _ (by decide), hget _ (by decide)]
      exact GoMap.get_delete_self _ _
    · intro k hk1 hk2
      rw [GoMap.get_set_ne _ _ _ _ hk2, hget _ hk2, GoMap.get_delete_ne _ _ _ hk1]
    · intro k hk
      rcases (GoMap.mem_keys_set _ _ _ _).1 hk with ⟨hk1, -⟩ | hk1
      · rcases hkeys k hk1 with h | h
        · exact Or.inl h
        · obtain ⟨h1, h2⟩ := (GoMap.mem_keys_delete _ _ _).1 h
          exact Or.inr ⟨h2, h1⟩
      · exact Or.inl hk1
  · intro hres
    obtain ⟨rs, hrs⟩ := sourcesLoop_returns W fuel sources hres
      (entries.filterMap W.decodeRepository)
    refine ⟨output.set "repositories" (GoValue.repositories rs), ?_⟩
    unfold parseSources
    rw [hin]
    unfold parseSourcesFrom
    simp only [Run.bind, Run.lift, hstatic, Run.after, hrs, Run.pure]

/-- Witness of C3: the object returned for the example configuration has no
`sources` and keeps `name`, `homepage` and `require-all`. -/
theorem parseSources_frame_witness :
    ∃ out, (parseSources scenarioWorld 1 (some (configWith [acmeGroup, acme]))).out
        = Outcome.ok out ∧
      out.get "sources" = none ∧
      out.get "name" = some (GoValue.json (JSON.string "acme/satis")) ∧
      out.get "homepage" = some (GoValue.json (JSON.string "https://satis.example")) ∧
      out.get "require-all" = some (GoValue.json (JSON.bool true)) := by
  obtain ⟨members, hm, hframe, htotal⟩ :=
    parseSources_frame scenarioWorld 1 (some (configWith [acmeGroup, acme]))
      [("name", GoValue.json (JSON.string "acme/satis")),
        ("homepage", GoValue.json (JSON.string "https://satis.example")),
        ("require-all", GoValue.json (JSON.bool true)),
        ("repositories", GoValue.json (JSON.array [staticEntry]))]
      [acmeGroup, acme] rfl
  obtain ⟨out, hout⟩ := htotal (fun s hs => by
    simp only [List.mem_cons, List.mem_singleton, List.not_mem_nil, or_false] at hs
    rcases hs with rfl | rfl <;> exact ⟨_, rfl⟩)
  obtain ⟨h1, h2, -⟩ := hframe out hout
  have hmem : members = [("name", JSON.string "acme/satis"),
      ("homepage", JSON.string "https://satis.example"), ("require-all", JSON.bool true),
      ("sources", JSON.array ([acmeGroup, acme].map sourceJSON)),
      ("repositories", JSON.array [staticEntry])] := by
    injection hm with hm
    injection hm with hm
    exact hm.symm
  subst hmem
  exact ⟨out, hout, h1, h2 "name" (by decide) (by decide),
    h2 "homepage" (by decide) (by decide), h2 "require-all" (by decide) (by decide)⟩

/-! ## Where the program departs from its specification -/

/-- C4, the program at a configuration without `sources`: `parseInput` returns
the configuration with `repositories` nil and no source, and `parseSources`
returns it with an empty `repositories`, having sent nothing; with the empty
array `parseInput` is fatal. -/
theorem parseInput_absent_sources_accepted (W : World) (fuel : Nat) :
    parseInput W (some configWithoutSources) =
      Outcome.ok ([("name", GoValue.json (JSON.string "acme/satis")),
        ("homepage", GoValue.json (JSON.string "https://satis.example")),
        ("repositories", GoValue.json JSON.null)], []) ∧
    parseSources W fuel (some configWithoutSources) =
      ⟨[], Outcome.ok [("name", GoValue.json (JSON.string "acme/satis")),
        ("homepage", GoValue.json (JSON.string "https://satis.example")),
        ("repositories", GoValue.repositories [])]⟩ ∧
    parseInput W (some configEmptySources) = Outcome.fatal :=
  ⟨rfl, rfl, rfl⟩

/-- C5, the program at a listing that fails with nil results: the sibling
source alone yields `app`, yet `parseSources` panics, whether the failing
Azure DevOps source comes first or last, and likewise for a GitHub or a GitLab
listing that returns a nil response. -/
theorem parseSources_listing_failure_panics :
    (parseGithub failingAzdoWorld 1 acme).out =
      Outcome.ok [⟨"app", "git", "git@github.com:acme/app.git", JSON.null⟩] ∧
    (parseSources failingAzdoWorld 1 (some (configWith [acmeProject, acme]))).out
      = Outcome.panic ∧
    (parseSources failingAzdoWorld 1 (some (configWith [acme, acmeProject]))).out
      = Outcome.panic ∧
    (parseSources failingGithubWorld 1 (some (configWith [acme, acmeProject]))).out
      = Outcome.panic ∧
    (parseSources failingGitlabWorld 1 (some (configWith [acmeGroup, acme]))).out
      = Outcome.panic ∧
    ∀ (W : World) (s : source) (org project : String),
      splitIdent s.SourceIdent = some (org, project) →
      W.azdoNewClient org s.SourceAuth = true →
      (W.azdoGetRepositories org s.SourceAuth project).repos = none →
      (parseAzDO W s).out = Outcome.panic := by
  refine ⟨rfl, rfl, rfl, rfl, rfl, ?_⟩
  intro W s org project hsplit hnew h
  unfold parseAzDO getAzDOClient
  simp [hsplit, hnew, h, Run.bind, Run.after]

end Satis
